import Mathlib

/-!
Verification of the PPP manager (src/ppp_manager.py): a shallow embedding of
its numeric normalizer, record store, persistence layer and query/mutation
operations, with theorems settling the specification's claims.

Modelling conventions:
* Python floats are modelled by exact rationals; every numeric value occurring
  in the claims is exactly representable in binary64, so the rational model
  agrees with CPython on them.
* A raised exception is modelled by `Option.none`.
* Python dicts are modelled by insertion-ordered association lists
  (overwriting keeps the original position, as CPython dicts do).
* String handling is over the ASCII fragment: Python `str.strip`,
  `str.lower`, `\d`, `\s` agree with the model there.
* `float()` is modelled without underscore digit grouping and without the
  `inf`/`nan` word forms; no call site in the manager can feed those to the
  first parsing branch, and `_clean_int` coerces them to `0` either way
  (underscored numerals are the one unmodelled divergence, noted at `pyFloat`).
-/

namespace PPP

/-- Python `str.strip()`: drop whitespace from both ends. -/
def pyStrip (s : String) : String :=
  String.mk (((s.data.dropWhile Char.isWhitespace).reverse.dropWhile Char.isWhitespace).reverse)

/-- Python `str.lower()` on the ASCII fragment. -/
def pyLower (s : String) : String := String.mk (s.data.map Char.toLower)

/-- `_norm`: strip then lowercase. -/
def pyNorm (s : String) : String := pyLower (pyStrip s)

/-- Leading run of decimal digits of a character list. -/
def takeDigits : List Char → List Char × List Char
  | [] => ([], [])
  | c :: cs =>
    if c.isDigit then
      match takeDigits cs with
      | (ds, rest) => (c :: ds, rest)
    else ([], c :: cs)

/-- Numeric value of a digit character. -/
def digitVal (c : Char) : Nat := c.toNat - 48

/-- Value of a digit string, most significant digit first. -/
def digitsVal (ds : List Char) : Nat := ds.foldl (fun a c => a * 10 + digitVal c) 0

/-- Exponent suffix of a float literal: optional sign then one or more digits,
consuming the whole rest of the input. -/
def expPart (cs : List Char) : Option Int :=
  let sc : Bool × List Char :=
    match cs with
    | '-' :: r => (true, r)
    | '+' :: r => (false, r)
    | _ => (false, cs)
  let p := takeDigits sc.2
  if p.1.isEmpty || !p.2.isEmpty then none
  else some (if sc.1 then -(digitsVal p.1 : Int) else (digitsVal p.1 : Int))

/-- After the mantissa of a float literal: either the end of input or an
exponent marker followed by a valid exponent. -/
def afterMantissa (m : ℚ) : List Char → Option ℚ
  | [] => some m
  | 'e' :: r => (expPart r).map (fun ex => m * (10 : ℚ) ^ ex)
  | 'E' :: r => (expPart r).map (fun ex => m * (10 : ℚ) ^ ex)
  | _ => none

/-- Unsigned part of the Python `float()` literal grammar:
`digits [. digits] [exp]` or `. digits [exp]`. -/
def pyFloatCore (cs : List Char) : Option ℚ :=
  match takeDigits cs with
  | (ip, '.' :: r2) =>
    match takeDigits r2 with
    | (fp, r3) =>
      if ip.isEmpty && fp.isEmpty then none
      else afterMantissa ((digitsVal ip : ℚ) + (digitsVal fp : ℚ) / (10 : ℚ) ^ fp.length) r3
  | (ip, rest) =>
    if ip.isEmpty then none else afterMantissa (digitsVal ip : ℚ) rest

/-- Python `float(s)` on a string: surrounding whitespace, an optional sign,
then the mantissa/exponent grammar. `none` models a raised `ValueError`.
(Underscore digit grouping and the `inf`/`nan` word forms are not modelled;
see the file header.) -/
def pyFloat (s : String) : Option ℚ :=
  match (pyStrip s).data with
  | '-' :: r => (pyFloatCore r).map (fun v => -v)
  | '+' :: r => pyFloatCore r
  | cs => pyFloatCore cs

/-- The character class of `_clean_number`'s first-branch regex
`^[\d,.\-eE$,\s]+$`. -/
def isCleanClass (c : Char) : Bool :=
  c.isDigit || c == ',' || c == '.' || c == '-' || c == 'e' || c == 'E' || c == '$' ||
    c.isWhitespace

/-- `.replace(",", "").replace(" ", "").replace("$", "")` of `_clean_number`. -/
def stripSeps (s : String) : String :=
  String.mk (s.data.filter (fun c => !(c == ',' || c == ' ' || c == '$')))

/-- `re.sub(r"[^0-9.\-eE]", "", s)` of `_clean_number`'s fallback. -/
def keepNumChars (s : String) : String :=
  String.mk (s.data.filter (fun c => c.isDigit || c == '.' || c == '-' || c == 'e' || c == 'E'))

/-- `_clean_number` on a string argument. `none` models an uncaught
`ValueError` escaping from the final `float(s)` call. -/
def cleanNumber (text : String) : Option ℚ :=
  if !(pyStrip text).data.isEmpty && (pyStrip text).data.all isCleanClass then
    match pyFloat (stripSeps (pyStrip text)) with
    | some v => some v
    | none =>
      if (keepNumChars (stripSeps (pyStrip text))).data.isEmpty then some 0
      else pyFloat (keepNumChars (stripSeps (pyStrip text)))
  else
    if (keepNumChars (pyStrip text)).data.isEmpty then some 0
    else pyFloat (keepNumChars (pyStrip text))

/-- A Python value reaching `_clean_number`: either text or an `int`/`float`. -/
inductive PyNum where
  | str (s : String)
  | num (q : ℚ)

/-- `_clean_number` including the `isinstance((int, float))` passthrough. -/
def cleanNumberVal : PyNum → Option ℚ
  | .num q => some q
  | .str s => cleanNumber s

/-- Truncation toward zero, as Python `int(float)`. -/
def truncQ (q : ℚ) : Int := if 0 ≤ q then ⌊q⌋ else -⌊-q⌋

/-- `_clean_int`: `int(float(str(text).strip()))`, any failure giving `0`. -/
def cleanInt (text : String) : Int :=
  match pyFloat (pyStrip text) with
  | some q => truncQ q
  | none => 0

/-! ## Records and the store -/

/-- One country's data, as the dict entries built by `load_data` /
`update_country` (all six fields always present; the simple schema leaves
`slug`, `date`, `region` empty). -/
structure Entry where
  name : String
  ppp : ℚ
  rank : Int
  slug : String
  date : String
  region : String
deriving DecidableEq

/-- The in-memory cache: a Python dict modelled as an insertion-ordered
association list with (by construction) pairwise-distinct keys. -/
abbrev Store := List (String × Entry)

def dictMem (d : Store) (k : String) : Bool := d.any (fun p => p.1 == k)

def dictGet (d : Store) (k : String) : Option Entry :=
  (List.find? (fun p => p.1 == k) d).map Prod.snd

/-- `cache[k] = v`: overwriting replaces the value at the key's original
position, as CPython dicts do; a new key is appended at the end. -/
def dictInsert (d : Store) (k : String) (v : Entry) : Store :=
  match d with
  | [] => [(k, v)]
  | p :: rest => if p.1 == k then (p.1, v) :: rest else p :: dictInsert rest k v

/-- `cache.values()` in key-insertion order. -/
def dictValues (d : Store) : List Entry := d.map Prod.snd

/-- The name part of `_make_index_keys`: `if name: keys.add(_norm(name))`. -/
def baseKeys (name : String) : List String :=
  if name == "" then [] else [pyNorm name]

/-- `_make_index_keys`: the normalized name (when the raw name is truthy) and
the normalized slug (when the raw slug is truthy), deduplicated. The source
returns a Python set; iteration order of a two-element string set is
unspecified, so the model fixes name-key first — none of the verified
properties depends on that order. -/
def makeIndexKeys (name slug : String) : List String :=
  if slug == "" || (baseKeys name).contains (pyNorm slug) then baseKeys name
  else baseKeys name ++ [pyNorm slug]

/-- `for k in keys: cache[k] = e`. -/
def insertAll (cache : Store) (keys : List String) (e : Entry) : Store :=
  keys.foldl (fun c k => dictInsert c k e) cache

/-- `_find`: direct lookup of the normalized query, then a fallback scan
comparing every record's normalized name or slug. -/
def find (cache : Store) (query : String) : Option Entry :=
  match dictGet cache (pyNorm query) with
  | some e => some e
  | none =>
    List.find? (fun v => pyNorm v.name == pyNorm query || pyNorm v.slug == pyNorm query)
      (dictValues cache)

/-- The store mutation of `update_country` (arguments are the already-stripped
interactive inputs; the simple schema passes `slug = date = region = ""`). -/
def updateCountry (cache : Store) (name : String) (ppp : ℚ) (rank : Int)
    (slug date region : String) : Store :=
  insertAll cache (makeIndexKeys name slug) ⟨name, ppp, rank, slug, date, region⟩

/-- The store/archive mutation of `delete_entry`: locate via `_find`; on a
miss change nothing (`none` result models the "Country not found" report); on
a hit drop every binding whose value is the located record (structural
equality models CPython `is`: all bindings to one record are to the one
object) and append the record to the archive. -/
def deleteEntry (cache : Store) (q : String) (archive : List Entry) :
    Store × List Entry × Option Entry :=
  match find cache q with
  | none => (cache, archive, none)
  | some e => (cache.filter (fun p => decide (p.2 ≠ e)), archive ++ [e], some e)

/-- The duplicate test of `merge_deleted_back`:
`_find(cache, name) or (slug and _find(cache, slug))`. -/
def conflictsWith (cache : Store) (e : Entry) : Bool :=
  (find cache e.name).isSome || (e.slug != "" && (find cache e.slug).isSome)

/-- `merge_deleted_back` over the already-loaded archive entries: returns the
updated store and the `keep_deleted` list that the archive is rewritten to. -/
def mergeDeletedBack : Store → List Entry → Store × List Entry
  | cache, [] => (cache, [])
  | cache, e :: rest =>
    if conflictsWith cache e then
      match mergeDeletedBack cache rest with
      | (c, keep) => (c, e :: keep)
    else
      match mergeDeletedBack (insertAll cache (makeIndexKeys e.name e.slug) e) rest with
      | (c, keep) => (c, keep)

/-- Result of `combined_ppp`: running total, names of hits, stripped misses. -/
structure CombinedResult where
  total : ℚ
  picked : List String
  missing : List String
deriving DecidableEq

/-- One loop iteration of `combined_ppp` (`q = x.strip()` inlined). -/
def combinedStep (cache : Store) (acc : CombinedResult) (x : String) : CombinedResult :=
  if pyStrip x == "" then acc
  else
    match find cache (pyStrip x) with
    | some e => { acc with total := acc.total + e.ppp, picked := acc.picked ++ [e.name] }
    | none => { acc with missing := acc.missing ++ [pyStrip x] }

/-- `combined_ppp` over the comma-split query tokens. -/
def combinedPPP (cache : Store) (names : List String) : CombinedResult :=
  names.foldl (combinedStep cache) ⟨0, [], []⟩

/-- Key discipline: every binding's key is the normalized name of its record,
or its normalized slug when the slug is non-empty. Every store the manager
builds satisfies it, because records are only ever indexed under
`_make_index_keys(name, slug)`. -/
def KeyDiscipline (cache : Store) : Prop :=
  ∀ p ∈ cache, p.1 = pyNorm p.2.name ∨ (p.2.slug ≠ "" ∧ p.1 = pyNorm p.2.slug)

/-- Dict well-formedness: pairwise-distinct keys (automatic for Python dicts). -/
def WellFormed (cache : Store) : Prop := (cache.map Prod.fst).Nodup

/-! ## Files and persistence -/

/-- A CSV file: header row and data rows. The csv module's quoting makes
cells round-trip verbatim (commas inside a cell are quoted on write and
unquoted on read), so a file is faithfully a list of string lists. -/
structure CSVFile where
  header : List String
  rows : List (List String)
deriving DecidableEq

/-- `csv.DictReader` cell lookup: the row dict is `dict(zip(fieldnames, row))`
(a missing cell behaves like an absent key); a duplicated header name keeps
the later column, hence the reverse search. -/
def rowGet (hdr row : List String) (k : String) : Option String :=
  ((List.zip hdr row).reverse.find? (fun p => p.1 == k)).map Prod.snd

/-- Python `a or b or ... or ""` over `row.get` results: the first value that
is neither `None` nor `""`, else `""`. -/
def firstTruthy : List (Option String) → String
  | [] => ""
  | some s :: rest => if s == "" then firstTruthy rest else s
  | none :: rest => firstTruthy rest

/-- The six CIA-schema column names, in the fixed order they are written. -/
def ciaFields : List String :=
  ["name", "slug", "value", "date_of_information", "ranking", "region"]

/-- The schema detection of `load_data`: all six CIA column names occur among
the stripped, lowercased headers. -/
def isCIAHeader (hdr : List String) : Bool :=
  ciaFields.all (fun c => (hdr.map (fun h => pyLower (pyStrip h))).contains c)

/-- One CIA-schema row of `load_data`: the built entry and its index keys.
`none` models `_clean_number` raising on the value cell. -/
def extRowParse (hdr row : List String) : Option (Entry × List String) :=
  match cleanNumber (firstTruthy [rowGet hdr row "value", rowGet hdr row "Value"]) with
  | none => none
  | some q =>
    some
      (⟨pyStrip (firstTruthy [rowGet hdr row "name", rowGet hdr row "Name"]), q,
          cleanInt (firstTruthy [rowGet hdr row "ranking", rowGet hdr row "Ranking"]),
          pyStrip (firstTruthy [rowGet hdr row "slug", rowGet hdr row "Slug"]),
          pyStrip (firstTruthy [rowGet hdr row "date_of_information",
            rowGet hdr row "Date_of_information"]),
          pyStrip (firstTruthy [rowGet hdr row "region", rowGet hdr row "Region"])⟩,
        makeIndexKeys (firstTruthy [rowGet hdr row "name", rowGet hdr row "Name"])
          (firstTruthy [rowGet hdr row "slug", rowGet hdr row "Slug"]))

/-- One simple-schema row of `load_data`: the entry and its single key
`_norm(name)` (inserted even when empty). -/
def simpleRowParse (hdr row : List String) : Option (Entry × List String) :=
  match cleanNumber (firstTruthy [rowGet hdr row "ppp", rowGet hdr row "PPP",
      rowGet hdr row "value", rowGet hdr row "PPP (Int$)"]) with
  | none => none
  | some q =>
    some
      (⟨pyStrip (firstTruthy [rowGet hdr row "country", rowGet hdr row "Country",
            rowGet hdr row "name"]), q,
          cleanInt (firstTruthy [rowGet hdr row "rank", rowGet hdr row "Rank",
            rowGet hdr row "ranking"]),
          "", "", ""⟩,
        [pyNorm (firstTruthy [rowGet hdr row "country", rowGet hdr row "Country",
          rowGet hdr row "name"])])

/-- Row parsing under the detected schema. -/
def rowParse (ext : Bool) (hdr row : List String) : Option (Entry × List String) :=
  if ext then extRowParse hdr row else simpleRowParse hdr row

/-- The row loop of `load_data`: parse each row and index its entry. -/
def loadRows (ext : Bool) (hdr : List String) : List (List String) → Store → Option Store
  | [], cache => some cache
  | row :: rest, cache =>
    match rowParse ext hdr row with
    | none => none
    | some (e, keys) => loadRows ext hdr rest (insertAll cache keys e)

/-- `load_data` on an existing file: detect the schema from the (stripped)
header, then build the cache. `none` models `_clean_number` raising. -/
def loadData (f : CSVFile) : Option (Store × Bool) :=
  (loadRows (isCIAHeader f.header) f.header f.rows []).map
    (fun c => (c, isCIAHeader f.header))

/-- The dedup key of `save_data`: `_norm(v.get("name")) or _norm(v.get("slug"))`. -/
def dedupKey (e : Entry) : String :=
  if pyNorm e.name == "" then pyNorm e.slug else pyNorm e.name

/-- The dedup pass of `save_data` over `cache.values()`: first occurrence per
non-empty key wins (`seen` carries the keys already taken). -/
def uniqueFirst : List Entry → List String → List Entry
  | [], _ => []
  | v :: rest, seen =>
    if dedupKey v == "" || seen.contains (dedupKey v) then uniqueFirst rest seen
    else v :: uniqueFirst rest (dedupKey v :: seen)

/-- The sort key of `save_data`: `(x.get("rank", 0) or 10**12, _norm(x.get("name")))`. -/
def sortKey (e : Entry) : Int × String :=
  (if e.rank = 0 then (10 : Int) ^ 12 else e.rank, pyNorm e.name)

/-- Lexicographic order on sort keys, as Python tuple comparison. -/
def saveLe (a b : Entry) : Prop :=
  (sortKey a).1 < (sortKey b).1 ∨ ((sortKey a).1 = (sortKey b).1 ∧ (sortKey a).2 ≤ (sortKey b).2)

instance : DecidableRel saveLe := fun a b => by
  unfold saveLe
  infer_instance

instance : IsTotal Entry saveLe where
  total a b := by
    unfold saveLe
    rcases lt_trichotomy (sortKey a).1 (sortKey b).1 with h | h | h
    · exact Or.inl (Or.inl h)
    · rcases le_total (sortKey a).2 (sortKey b).2 with h2 | h2
      · exact Or.inl (Or.inr ⟨h, h2⟩)
      · exact Or.inr (Or.inr ⟨h.symm, h2⟩)
    · exact Or.inr (Or.inl h)

instance : IsTrans Entry saveLe where
  trans a b c hab hbc := by
    unfold saveLe at hab hbc ⊢
    rcases hab with h1 | ⟨h1, h1s⟩ <;> rcases hbc with h2 | ⟨h2, h2s⟩
    · exact Or.inl (h1.trans h2)
    · exact Or.inl (lt_of_lt_of_eq h1 h2)
    · exact Or.inl (lt_of_eq_of_lt h1 h2)
    · exact Or.inr ⟨h1.trans h2, h1s.trans h2s⟩

/-- A decimal digit character. -/
def digitChar : Nat → Char
  | 0 => '0'
  | 1 => '1'
  | 2 => '2'
  | 3 => '3'
  | 4 => '4'
  | 5 => '5'
  | 6 => '6'
  | 7 => '7'
  | 8 => '8'
  | _ => '9'

/-- Decimal digits, most significant first; structural recursion on a fuel
bound (any fuel greater than `n` suffices) so the kernel can evaluate it. -/
def natDecAux : Nat → Nat → List Char
  | 0, _ => []
  | fuel + 1, n =>
    if n < 10 then [digitChar n] else natDecAux fuel (n / 10) ++ [digitChar (n % 10)]

/-- Decimal digits of a natural number, most significant first. -/
def natDecChars (n : Nat) : List Char := natDecAux (n + 1) n

/-- Python `str(i)` for an int. -/
def intRepr (i : Int) : String :=
  if i < 0 then String.mk ('-' :: natDecChars i.natAbs) else String.mk (natDecChars i.natAbs)

/-- A comma after every third character, input reversed (units digit first). -/
def group3Rev : List Char → List Char
  | c1 :: c2 :: c3 :: c4 :: rest => c1 :: c2 :: c3 :: ',' :: group3Rev (c4 :: rest)
  | l => l

/-- Python `f"{i:,}"`: thousands-grouped decimal rendering. -/
def groupedRepr (i : Int) : String :=
  if i < 0 then String.mk ('-' :: (group3Rev (natDecChars i.natAbs).reverse).reverse)
  else String.mk ((group3Rev (natDecChars i.natAbs).reverse).reverse)

/-- The CIA `value` cell written by the persistence functions:
`f"{int(e['ppp']):,}" if e.get("ppp", 0) else "0"`. -/
def renderValue (q : ℚ) : String :=
  if q = 0 then "0" else groupedRepr (truncQ q)

/-- One CIA-schema row written by `save_data`. -/
def renderExtRow (e : Entry) : List String :=
  [e.name, e.slug, renderValue e.ppp, e.date, intRepr e.rank, e.region]

/-- One simple-schema row written by `save_data` (`ppp` as a plain truncated
integer, no grouping). -/
def renderSimpleRow (e : Entry) : List String :=
  [e.name, intRepr (truncQ e.ppp), intRepr e.rank]

/-- `save_data`: deduplicate `cache.values()` by normalized-name-or-slug
(first occurrence wins), stable-sort by `(rank, 0 ↦ 10^12 sentinel;
normalized name)`, and write a header row plus one row per record in the
active schema's layout. -/
def saveData (cache : Store) (ext : Bool) : CSVFile :=
  if ext then
    ⟨ciaFields,
      (List.insertionSort saveLe (uniqueFirst (dictValues cache) [])).map renderExtRow⟩
  else
    ⟨["country", "ppp", "rank"],
      (List.insertionSort saveLe (uniqueFirst (dictValues cache) [])).map renderSimpleRow⟩

/-- The distinct records of a store (each record occupies one or two keys). -/
def storeRecords (c : Store) : List Entry := (dictValues c).dedup

/-- The `(name, ppp, rank)` triple of a record. -/
def tripleOf (e : Entry) : String × ℚ × Int := (e.name, e.ppp, e.rank)

/-- The triple after the integer truncation that `save_data` applies to ppp. -/
def truncTriple (e : Entry) : String × ℚ × Int := (e.name, (truncQ e.ppp : ℚ), e.rank)

/-- A record after one save/load cycle: ppp integer-truncated, rest unchanged. -/
def truncEntry (e : Entry) : Entry :=
  ⟨e.name, (truncQ e.ppp : ℚ), e.rank, e.slug, e.date, e.region⟩

/-- String fields carry no surrounding whitespace (as `load_data` guarantees,
since it strips every string field). -/
def TrimmedEntry (e : Entry) : Prop :=
  pyStrip e.name = e.name ∧ pyStrip e.slug = e.slug ∧ pyStrip e.date = e.date ∧
    pyStrip e.region = e.region

/-- The ten decimal digit characters. -/
def digitList : List Char := ['0', '1', '2', '3', '4', '5', '6', '7', '8', '9']

/-- The store built by a successful `load_data` pass over parsed rows whose
index keys never collide: one binding per key, in row order. -/
def bindingsOf (prs : List (Entry × List String)) : Store :=
  (prs.map (fun p => p.2.map (fun k => (k, p.1)))).flatten

/-! ## Theorems -/

/-! ### Dictionary, index-key and operation lemmas -/

theorem dictGet_cons_self (p : String × Entry) (d : Store) : dictGet (p :: d) p.1 = some p.2 := by
  simp [dictGet, List.find?_cons_of_pos]

theorem dictGet_cons_ne (p : String × Entry) (d : Store) (k : String) (h : p.1 ≠ k) :
    dictGet (p :: d) k = dictGet d k := by
  simp only [dictGet]
  rw [List.find?_cons_of_neg]
  simp [h]

theorem dictGet_nil (k : String) : dictGet [] k = none := rfl

theorem dictGet_insert (d : Store) (q : String) (v : Entry) (k : String) :
    dictGet (dictInsert d q v) k = if k = q then some v else dictGet d k := by
  induction d with
  | nil =>
    by_cases h : k = q
    · subst h
      simpa using dictGet_cons_self (k, v) []
    · rw [if_neg h, dictGet_nil]
      show dictGet [(q, v)] k = none
      rw [dictGet_cons_ne (q, v) [] k (fun hh => h hh.symm), dictGet_nil]
  | cons p rest ih =>
    simp only [dictInsert]
    by_cases hpq : p.1 = q
    · rw [if_pos (by simpa using hpq)]
      by_cases hkq : k = q
      · subst hkq
        rw [if_pos rfl, ← hpq]
        simpa using dictGet_cons_self (p.1, v) rest
      · have hpk : p.1 ≠ k := by
          rw [hpq]
          exact fun hh => hkq hh.symm
        rw [if_neg hkq, dictGet_cons_ne (p.1, v) rest k hpk, dictGet_cons_ne p rest k hpk]
    · rw [if_neg (by simpa using hpq)]
      by_cases hpk : p.1 = k
      · have hkq : ¬ k = q := fun hh => hpq (hpk.trans hh)
        rw [if_neg hkq, ← hpk]
        rw [dictGet_cons_self p (dictInsert rest q v), dictGet_cons_self p rest]
      · rw [dictGet_cons_ne p (dictInsert rest q v) k hpk, ih, dictGet_cons_ne p rest k hpk]

theorem dictMem_iff (d : Store) (k : String) :
    dictMem d k = true ↔ k ∈ d.map Prod.fst := by
  simp [dictMem, List.any_eq_true, beq_iff_eq, List.mem_map]

theorem dictInsert_keys (d : Store) (q : String) (v : Entry) :
    (dictInsert d q v).map Prod.fst =
      if dictMem d q then d.map Prod.fst else d.map Prod.fst ++ [q] := by
  induction d with
  | nil => simp [dictInsert, dictMem]
  | cons p rest ih =>
    by_cases hpq : p.1 = q
    · simp [dictInsert, dictMem, hpq]
    · have hb : (p.1 == q) = false := by simp [hpq]
      simp only [dictInsert, hb, Bool.false_eq_true, if_false, List.map_cons, ih, dictMem,
        List.any_cons, Bool.false_or]
      by_cases hm : List.any rest (fun x => x.1 == q) = true
      · simp [hm]
      · simp [hm]

theorem wellFormed_dictInsert (d : Store) (q : String) (v : Entry) (h : WellFormed d) :
    WellFormed (dictInsert d q v) := by
  unfold WellFormed
  rw [dictInsert_keys]
  by_cases hm : dictMem d q = true
  · simpa [hm] using h
  · have hq : ¬ q ∈ d.map Prod.fst := fun hc => hm ((dictMem_iff d q).2 hc)
    rw [if_neg hm]
    refine List.Nodup.append h (List.nodup_singleton q) ?_
    intro a ha hb
    rw [List.mem_singleton] at hb
    subst hb
    exact hq ha

theorem mem_dictInsert (d : Store) (q : String) (v : Entry) (p : String × Entry)
    (h : p ∈ dictInsert d q v) : p ∈ d ∨ p = (q, v) := by
  induction d with
  | nil =>
    simp [dictInsert] at h
    exact Or.inr h
  | cons hd rest ih =>
    by_cases hpq : hd.1 = q
    · simp only [dictInsert, beq_iff_eq, hpq, if_true, List.mem_cons] at h
      rcases h with h | h
      · exact Or.inr h
      · exact Or.inl (List.mem_cons_of_mem hd h)
    · simp only [dictInsert, beq_iff_eq, hpq, if_false, List.mem_cons] at h
      rcases h with h | h
      · exact Or.inl (by simp [h])
      · rcases ih h with h2 | h2
        · exact Or.inl (List.mem_cons_of_mem hd h2)
        · exact Or.inr h2

theorem dictGet_of_mem (d : Store) (p : String × Entry) (wf : WellFormed d) (hp : p ∈ d) :
    dictGet d p.1 = some p.2 := by
  induction d with
  | nil => simp at hp
  | cons hd rest ih =>
    rcases List.mem_cons.1 hp with h | h
    · subst h
      exact dictGet_cons_self p rest
    · have hne : hd.1 ≠ p.1 := by
        intro hc
        have : p.1 ∈ rest.map Prod.fst := List.mem_map_of_mem Prod.fst h
        have hw := (List.nodup_cons.1 wf).1
        exact hw (hc ▸ this)
      rw [dictGet_cons_ne hd rest p.1 hne]
      exact ih (List.nodup_cons.1 wf).2 h

theorem insertAll_get_notmem (keys : List String) (c : Store) (e : Entry) (k : String)
    (h : k ∉ keys) : dictGet (insertAll c keys e) k = dictGet c k := by
  induction keys generalizing c with
  | nil => rfl
  | cons k0 rest ih =>
    have h0 : k ≠ k0 := fun hh => h (hh ▸ List.mem_cons_self k0 rest)
    have hr : k ∉ rest := fun hh => h (List.mem_cons_of_mem k0 hh)
    show dictGet (insertAll (dictInsert c k0 e) rest e) k = dictGet c k
    rw [ih (dictInsert c k0 e) hr, dictGet_insert, if_neg h0]

theorem insertAll_get_mem (keys : List String) (c : Store) (e : Entry) (k : String)
    (h : k ∈ keys) : dictGet (insertAll c keys e) k = some e := by
  induction keys generalizing c with
  | nil => simp at h
  | cons k0 rest ih =>
    by_cases hr : k ∈ rest
    · exact ih (dictInsert c k0 e) hr
    · have hk0 : k = k0 := by
        rcases List.mem_cons.1 h with h1 | h1
        · exact h1
        · exact (hr h1).elim
      show dictGet (insertAll (dictInsert c k0 e) rest e) k = some e
      rw [insertAll_get_notmem rest _ e k hr, dictGet_insert, hk0, if_pos rfl]

theorem mem_insertAll (keys : List String) (c : Store) (e : Entry) (p : String × Entry)
    (h : p ∈ insertAll c keys e) : p ∈ c ∨ (p.1 ∈ keys ∧ p.2 = e) := by
  induction keys generalizing c with
  | nil => exact Or.inl h
  | cons k0 rest ih =>
    rcases ih (dictInsert c k0 e) h with h1 | h1
    · rcases mem_dictInsert c k0 e p h1 with h2 | h2
      · exact Or.inl h2
      · right
        rw [h2]
        exact ⟨List.mem_cons_self _ _, rfl⟩
    · right
      exact ⟨List.mem_cons_of_mem _ h1.1, h1.2⟩

theorem wellFormed_insertAll (keys : List String) (c : Store) (e : Entry)
    (wf : WellFormed c) : WellFormed (insertAll c keys e) := by
  induction keys generalizing c with
  | nil => exact wf
  | cons k0 rest ih => exact ih (dictInsert c k0 e) (wellFormed_dictInsert c k0 e wf)

theorem makeIndexKeys_nodup (n s : String) : (makeIndexKeys n s).Nodup := by
  unfold makeIndexKeys baseKeys
  by_cases hn : n = "" <;> by_cases hs : s = "" <;> simp [hn, hs]
  split
  · simp
  · rename_i hcon
    simp at hcon ⊢
    exact fun hh => hcon hh.symm

theorem mem_makeIndexKeys (n s k : String) (h : k ∈ makeIndexKeys n s) :
    (n ≠ "" ∧ k = pyNorm n) ∨ (s ≠ "" ∧ k = pyNorm s) := by
  unfold makeIndexKeys baseKeys at h
  by_cases hn : n = "" <;> by_cases hs : s = "" <;> simp [hn, hs] at h
  · exact Or.inr ⟨hs, h⟩
  · exact Or.inl ⟨hn, h⟩
  · revert h
    split <;> intro h
    · simp at h
      exact Or.inl ⟨hn, h⟩
    · simp at h
      rcases h with h | h
      · exact Or.inl ⟨hn, h⟩
      · exact Or.inr ⟨hs, h⟩

theorem name_mem_makeIndexKeys (n s : String) (hn : n ≠ "") :
    pyNorm n ∈ makeIndexKeys n s := by
  unfold makeIndexKeys baseKeys
  by_cases hs : s = "" <;> simp [hn, hs]
  split <;> simp

theorem slug_mem_makeIndexKeys (n s : String) (hs : s ≠ "") :
    pyNorm s ∈ makeIndexKeys n s := by
  unfold makeIndexKeys baseKeys
  by_cases hn : n = "" <;> simp [hn, hs]
  · split <;> rename_i hcon <;> simp_all [beq_iff_eq]

theorem dictGet_mem_values (c : Store) (k : String) (v : Entry) (h : dictGet c k = some v) :
    v ∈ dictValues c := by
  unfold dictGet at h
  cases hf : List.find? (fun p => p.1 == k) c with
  | none => rw [hf] at h; simp at h
  | some p =>
    rw [hf] at h
    simp at h
    subst h
    exact List.mem_map_of_mem Prod.snd (List.mem_of_find?_eq_some hf)

theorem find_mem (c : Store) (q : String) (v : Entry) (h : find c q = some v) :
    v ∈ dictValues c := by
  unfold find at h
  cases hg : dictGet c (pyNorm q) with
  | some e =>
    rw [hg] at h
    have he : e = v := by simpa using h
    subst he
    exact dictGet_mem_values c (pyNorm q) e hg
  | none =>
    rw [hg] at h
    exact List.mem_of_find?_eq_some h

theorem find_of_dictGet (c : Store) (q : String) (e : Entry)
    (h : dictGet c (pyNorm q) = some e) : find c q = some e := by
  unfold find
  rw [h]

theorem find_none_dictGet (c : Store) (q : String) (h : find c q = none) :
    dictGet c (pyNorm q) = none := by
  unfold find at h
  cases hg : dictGet c (pyNorm q) with
  | none => rfl
  | some e => rw [hg] at h; simp at h

theorem dictGet_append (c t : Store) (k : String) :
    dictGet (c ++ t) k = ((dictGet c k).orElse (fun _ => dictGet t k)) := by
  induction c with
  | nil => simp [dictGet]
  | cons p rest ih =>
    by_cases hpk : p.1 = k
    · rw [List.cons_append, ← hpk, dictGet_cons_self, dictGet_cons_self]
      rfl
    · rw [List.cons_append, dictGet_cons_ne p _ k hpk, dictGet_cons_ne p rest k hpk, ih]

theorem dictValues_append (c t : Store) :
    dictValues (c ++ t) = dictValues c ++ dictValues t := by
  simp [dictValues]

theorem find_mono_append (c t : Store) (q : String)
    (h : (find c q).isSome = true) : (find (c ++ t) q).isSome = true := by
  unfold find at h ⊢
  cases hg : dictGet (c ++ t) (pyNorm q) with
  | some e => simp
  | none =>
    rw [dictGet_append] at hg
    cases hgc : dictGet c (pyNorm q) with
    | some e => rw [hgc] at hg; simp [Option.orElse] at hg
    | none =>
      rw [hgc] at h
      simp only [Option.isSome] at h
      cases hf : List.find? (fun v => pyNorm v.name == pyNorm q || pyNorm v.slug == pyNorm q)
          (dictValues c) with
      | none => rw [hf] at h; simp at h
      | some v =>
        have hv := List.mem_of_find?_eq_some hf
        have hvp := List.find?_some hf
        have : (List.find? (fun v => pyNorm v.name == pyNorm q || pyNorm v.slug == pyNorm q)
            (dictValues (c ++ t))).isSome = true := by
          rw [List.find?_isSome]
          exact ⟨v, by rw [dictValues_append]; exact List.mem_append_left _ hv, hvp⟩
        cases hf2 : List.find? (fun v => pyNorm v.name == pyNorm q || pyNorm v.slug == pyNorm q)
            (dictValues (c ++ t)) with
        | none => rw [hf2] at this; simp at this
        | some w => simp

theorem conflictsWith_mono_append (c t : Store) (e : Entry)
    (h : conflictsWith c e = true) : conflictsWith (c ++ t) e = true := by
  unfold conflictsWith at h ⊢
  rcases Bool.or_eq_true_iff.1 h with h1 | h1
  · exact Bool.or_eq_true_iff.2 (Or.inl (find_mono_append c t e.name h1))
  · rcases Bool.and_eq_true_iff.1 h1 with ⟨h2, h3⟩
    exact Bool.or_eq_true_iff.2 (Or.inr (Bool.and_eq_true_iff.2
      ⟨h2, find_mono_append c t e.slug h3⟩))

theorem dictInsert_absent (c : Store) (k : String) (v : Entry)
    (h : dictGet c k = none) : dictInsert c k v = c ++ [(k, v)] := by
  induction c with
  | nil => rfl
  | cons p rest ih =>
    by_cases hpk : p.1 = k
    · rw [← hpk, dictGet_cons_self] at h
      simp at h
    · rw [dictGet_cons_ne p rest k hpk] at h
      have hb : (p.1 == k) = false := by simp [hpk]
      simp only [dictInsert, hb, Bool.false_eq_true, if_false, ih h, List.cons_append]

theorem insertAll_fresh_append (keys : List String) (c : Store) (e : Entry)
    (hnd : keys.Nodup) (hf : ∀ k ∈ keys, dictGet c k = none) :
    insertAll c keys e = c ++ keys.map (fun k => (k, e)) := by
  induction keys generalizing c with
  | nil => simp [insertAll]
  | cons k0 rest ih =>
    have h0 : dictGet c k0 = none := hf k0 (List.mem_cons_self _ _)
    have hnd' : rest.Nodup := (List.nodup_cons.1 hnd).2
    have hk0r : k0 ∉ rest := (List.nodup_cons.1 hnd).1
    show insertAll (dictInsert c k0 e) rest e = c ++ (k0, e) :: rest.map (fun k => (k, e))
    rw [dictInsert_absent c k0 e h0]
    rw [ih (c ++ [(k0, e)]) hnd' ?fresh]
    · simp
    case fresh =>
      intro k hk
      rw [dictGet_append]
      rw [hf k (List.mem_cons_of_mem _ hk)]
      have hkk0 : ¬ ((k0, e).1 = k) := by
        intro hh
        apply hk0r
        rw [show k0 = k from hh]
        exact hk
      simp only [Option.orElse]
      rw [dictGet_cons_ne (k0, e) [] k hkk0]
      rfl

theorem restorable_fresh (c : Store) (e : Entry) (h : conflictsWith c e = false) :
    ∀ k ∈ makeIndexKeys e.name e.slug, dictGet c k = none := by
  intro k hk
  unfold conflictsWith at h
  rcases Bool.or_eq_false_iff.1 h with ⟨h1, h2⟩
  rcases mem_makeIndexKeys _ _ _ hk with ⟨hn, hkey⟩ | ⟨hs, hkey⟩
  · subst hkey
    have : find c e.name = none := by
      cases hfn : find c e.name with
      | none => rfl
      | some v => rw [hfn] at h1; simp at h1
    exact find_none_dictGet c e.name this
  · subst hkey
    have hsb : (e.slug != "") = true := by simp [hs]
    rw [hsb] at h2
    simp only [Bool.true_and] at h2
    have : find c e.slug = none := by
      cases hfn : find c e.slug with
      | none => rfl
      | some v => rw [hfn] at h2; simp at h2
    exact find_none_dictGet c e.slug this

theorem merge_extends (items : List Entry) (cache : Store) :
    ∃ t : Store, (mergeDeletedBack cache items).1 = cache ++ t := by
  induction items generalizing cache with
  | nil => exact ⟨[], by simp [mergeDeletedBack]⟩
  | cons e rest ih =>
    by_cases hc : conflictsWith cache e = true
    · obtain ⟨t, ht⟩ := ih cache
      refine ⟨t, ?_⟩
      simp only [mergeDeletedBack, hc, if_true]
      rw [← ht]
    · have hcf : conflictsWith cache e = false := by simpa using hc
      have hfresh := restorable_fresh cache e hcf
      have happ := insertAll_fresh_append (makeIndexKeys e.name e.slug) cache e
        (makeIndexKeys_nodup e.name e.slug) hfresh
      obtain ⟨t, ht⟩ := ih (insertAll cache (makeIndexKeys e.name e.slug) e)
      refine ⟨(makeIndexKeys e.name e.slug).map (fun k => (k, e)) ++ t, ?_⟩
      simp only [mergeDeletedBack, hcf, Bool.false_eq_true, if_false]
      cases hm : mergeDeletedBack (insertAll cache (makeIndexKeys e.name e.slug) e) rest with
      | mk c keep =>
        simp [hm] at ht ⊢
        rw [ht, happ, List.append_assoc]

theorem merge_keep_sublist (items : List Entry) (cache : Store) :
    (mergeDeletedBack cache items).2.Sublist items := by
  induction items generalizing cache with
  | nil => simp [mergeDeletedBack]
  | cons e rest ih =>
    by_cases hc : conflictsWith cache e = true
    · simp only [mergeDeletedBack, hc, if_true]
      exact List.Sublist.cons₂ e (ih cache)
    · have hcf : conflictsWith cache e = false := by simpa using hc
      simp only [mergeDeletedBack, hcf, Bool.false_eq_true, if_false]
      exact List.Sublist.cons e (ih _)

theorem merge_conflict_kept (items : List Entry) :
    ∀ (cache : Store) (e : Entry), e ∈ items → conflictsWith cache e = true →
      e ∈ (mergeDeletedBack cache items).2 := by
  induction items with
  | nil =>
    intro cache e he
    simp at he
  | cons h rest ih =>
    intro cache e he hc
    by_cases hch : conflictsWith cache h = true
    · simp only [mergeDeletedBack, hch, if_true]
      rcases List.mem_cons.1 he with he1 | he1
      · subst he1
        exact List.mem_cons_self _ _
      · exact List.mem_cons_of_mem _ (ih cache e he1 hc)
    · have hcf : conflictsWith cache h = false := by simpa using hch
      have hne : e ≠ h := by
        intro hh
        rw [hh, hcf] at hc
        cases hc
      simp only [mergeDeletedBack, hcf, Bool.false_eq_true, if_false]
      have he1 : e ∈ rest := by
        rcases List.mem_cons.1 he with h1 | h1
        · exact (hne h1).elim
        · exact h1
      have hfresh := restorable_fresh cache h hcf
      have happ := insertAll_fresh_append _ cache h (makeIndexKeys_nodup h.name h.slug) hfresh
      have hc2 : conflictsWith (insertAll cache (makeIndexKeys h.name h.slug) h) e = true := by
        rw [happ]
        exact conflictsWith_mono_append _ _ e hc
      exact ih _ e he1 hc2

theorem merge_preserves_get (items : List Entry) (cache : Store) (k : String) (v : Entry)
    (h : dictGet cache k = some v) :
    dictGet (mergeDeletedBack cache items).1 k = some v := by
  obtain ⟨t, ht⟩ := merge_extends items cache
  rw [ht, dictGet_append, h]
  rfl

theorem merge_restored_indexed (items : List Entry) :
    ∀ (cache : Store) (e : Entry), e ∈ items → e ∉ (mergeDeletedBack cache items).2 →
      ∀ k ∈ makeIndexKeys e.name e.slug, dictGet (mergeDeletedBack cache items).1 k = some e := by
  induction items with
  | nil =>
    intro cache e he
    simp at he
  | cons h rest ih =>
    intro cache e he hkeep k hk
    by_cases hch : conflictsWith cache h = true
    · simp only [mergeDeletedBack, hch, if_true] at hkeep ⊢
      have hne : e ≠ h := by
        intro hh
        exact hkeep (by rw [hh]; exact List.mem_cons_self _ _)
      have he1 : e ∈ rest := by
        rcases List.mem_cons.1 he with h1 | h1
        · exact (hne h1).elim
        · exact h1
      have hkeep' : e ∉ (mergeDeletedBack cache rest).2 := by
        intro hh
        exact hkeep (List.mem_cons_of_mem _ hh)
      exact ih cache e he1 hkeep' k hk
    · have hcf : conflictsWith cache h = false := by simpa using hch
      simp only [mergeDeletedBack, hcf, Bool.false_eq_true, if_false] at hkeep ⊢
      by_cases heh : e = h
      · subst heh
        have hfresh := restorable_fresh cache e hcf
        have hget : dictGet (insertAll cache (makeIndexKeys e.name e.slug) e) k = some e :=
          insertAll_get_mem _ cache e k hk
        exact merge_preserves_get rest _ k e hget
      · have he1 : e ∈ rest := by
          rcases List.mem_cons.1 he with h1 | h1
          · exact (heh h1).elim
          · exact h1
        exact ih _ e he1 hkeep k hk

theorem merge_kept_conflicts (items : List Entry) :
    ∀ (cache : Store) (e : Entry), e ∈ (mergeDeletedBack cache items).2 →
      conflictsWith (mergeDeletedBack cache items).1 e = true := by
  induction items with
  | nil =>
    intro cache e he
    simp [mergeDeletedBack] at he
  | cons h rest ih =>
    intro cache e he
    by_cases hch : conflictsWith cache h = true
    · simp only [mergeDeletedBack, hch, if_true] at he ⊢
      rcases List.mem_cons.1 he with h1 | h1
      · subst h1
        obtain ⟨t, ht⟩ := merge_extends rest cache
        rw [ht]
        exact conflictsWith_mono_append _ _ _ hch
      · exact ih cache e h1
    · have hcf : conflictsWith cache h = false := by simpa using hch
      simp only [mergeDeletedBack, hcf, Bool.false_eq_true, if_false] at he ⊢
      exact ih _ e he

theorem dictGet_some_mem (c : Store) (k : String) (v : Entry) (h : dictGet c k = some v) :
    ∃ p ∈ c, p.1 = k ∧ p.2 = v := by
  unfold dictGet at h
  cases hf : List.find? (fun p => p.1 == k) c with
  | none =>
    rw [hf] at h
    simp at h
  | some p =>
    rw [hf] at h
    have hm := List.mem_of_find?_eq_some hf
    have hp := List.find?_some hf
    simp [beq_iff_eq] at hp
    simp at h
    exact ⟨p, hm, hp, h⟩

theorem combined_go_miss (cache : Store) (qs : List String) :
    ∀ acc : CombinedResult,
      (∀ x ∈ qs, pyStrip x ≠ "" → find cache (pyStrip x) = none) →
      List.foldl (combinedStep cache) acc qs =
        ⟨acc.total, acc.picked, acc.missing ++ (qs.map pyStrip).filter (fun s => !(s == ""))⟩ := by
  induction qs with
  | nil =>
    intro acc h
    simp
  | cons x qs ih =>
    intro acc h
    rw [List.foldl_cons]
    by_cases hx : pyStrip x = ""
    · have hstep : combinedStep cache acc x = acc := by simp [combinedStep, hx]
      rw [hstep, ih acc (fun y hy => h y (List.mem_cons_of_mem x hy))]
      simp [hx]
    · have hfind : find cache (pyStrip x) = none := h x (List.mem_cons_self x qs) hx
      have hstep : combinedStep cache acc x =
          { acc with missing := acc.missing ++ [pyStrip x] } := by
        simp [combinedStep, hx, hfind]
      rw [hstep, ih _ (fun y hy => h y (List.mem_cons_of_mem x hy))]
      simp [hx]

theorem combined_go_hit (cache : Store) (qs : List String) :
    ∀ acc : CombinedResult,
      (∀ x ∈ qs, pyStrip x ≠ "" ∧ (find cache (pyStrip x)).isSome = true) →
      List.foldl (combinedStep cache) acc qs =
        ⟨acc.total + (qs.map (fun x => ((find cache (pyStrip x)).map Entry.ppp).getD 0)).sum,
          acc.picked ++ qs.map (fun x => ((find cache (pyStrip x)).map Entry.name).getD ""),
          acc.missing⟩ := by
  induction qs with
  | nil =>
    intro acc h
    simp
  | cons x qs ih =>
    intro acc h
    rw [List.foldl_cons]
    obtain ⟨hx, hsome⟩ := h x (List.mem_cons_self x qs)
    obtain ⟨e, he⟩ := Option.isSome_iff_exists.1 hsome
    have hstep : combinedStep cache acc x =
        { acc with total := acc.total + e.ppp, picked := acc.picked ++ [e.name] } := by
      simp [combinedStep, hx, he]
    rw [hstep, ih _ (fun y hy => h y (List.mem_cons_of_mem x hy))]
    simp [he, add_assoc]

/-! ### Claim theorems -/


/-- C1: the claim says `_clean_number` returns a number for every input string,
never raising and failing closed to zero. It does return `0` for `""` and
`"n/a"`, but on `"-"` (likewise `"e"`, `"."`) the fallback branch reaches
`float(s)` with a non-empty unparseable residue and the `ValueError` escapes:
the model returns `none` (a raised exception), contradicting the claim. -/
theorem C1_cleanNumber_not_total :
    cleanNumber "" = some 0 ∧ cleanNumber "n/a" = some 0 ∧ cleanNumber "-" = none := by
  decide

/-- C2 counterexample: `parse_amount "$33,598,000,000,000"` is
`33598000000000`, not the claimed `27700000000000`. -/
theorem C2_dollar_form_differs :
    cleanNumberVal (.str "$33,598,000,000,000") = some 33598000000000 ∧
      (33598000000000 : ℚ) ≠ 27700000000000 := by
  refine ⟨?_, by norm_num⟩
  simp +decide [cleanNumberVal, cleanNumber, pyStrip, stripSeps, keepNumChars, pyFloat,
    pyFloatCore, afterMantissa, expPart, takeDigits, digitsVal, digitVal]

/-- C2 amended: each accepted text form parses to the number its digits denote
with separators and currency markers stripped — `"27,700,000,000,000"` and
`"27.7e12"` both give `27700000000000`, `"$33,598,000,000,000"` gives
`33598000000000` — and numeric input `27700000000000` passes through
unchanged. -/
theorem C2_accepted_forms :
    cleanNumberVal (.str "27,700,000,000,000") = some 27700000000000 ∧
      cleanNumberVal (.str "27.7e12") = some 27700000000000 ∧
      cleanNumberVal (.str "$33,598,000,000,000") = some 33598000000000 ∧
      cleanNumberVal (.num 27700000000000) = some 27700000000000 := by
  refine ⟨?_, ?_, ?_, rfl⟩
  all_goals simp +decide [cleanNumberVal, cleanNumber, pyStrip, stripSeps, keepNumChars,
    pyFloat, pyFloatCore, afterMantissa, expPart, takeDigits, digitsVal, digitVal]
  all_goals norm_num

/-- C4 counterexample: build, by two `update_country` operations, a store
holding record `E1 = (name "x", slug "s")` and record `(name "x", slug "t")`.
The second update overwrote the name-key `"x"`, so `E1` is still in the store
(under its slug-key) but `find` on its name returns the other record: the
claimed invariant "every record is reachable under its normalized name" is
false. -/
theorem C4_counterexample :
    (⟨"x", 1, 1, "s", "", ""⟩ : Entry) ∈
        dictValues (updateCountry (updateCountry [] "x" 1 1 "s" "" "") "x" 2 2 "t" "" "") ∧
      find (updateCountry (updateCountry [] "x" 1 1 "s" "" "") "x" 2 2 "t" "" "")
          (Entry.name ⟨"x", 1, 1, "s", "", ""⟩) ≠
        some ⟨"x", 1, 1, "s", "", ""⟩ := by
  decide

/-- C5 counterexample: store `(name "x", slug "q")` then `(name "x", slug
"s")`; the second record is indexed under both `"x"` and `"s"`. Deleting
`"x"` removes both of its keys, yet `find "x"` still resolves — the fallback
scan finds the shadowed first record — so "neither key resolves via find" is
false as stated. -/
theorem C5_counterexample :
    dictGet (updateCountry (updateCountry [] "x" 1 1 "q" "" "") "x" 2 2 "s" "" "") "x" =
        some ⟨"x", 2, 2, "s", "", ""⟩ ∧
      dictGet (updateCountry (updateCountry [] "x" 1 1 "q" "" "") "x" 2 2 "s" "" "") "s" =
        some ⟨"x", 2, 2, "s", "", ""⟩ ∧
      (deleteEntry (updateCountry (updateCountry [] "x" 1 1 "q" "" "") "x" 2 2 "s" "" "")
            "x" []).2.2 = some ⟨"x", 2, 2, "s", "", ""⟩ ∧
      find (deleteEntry (updateCountry (updateCountry [] "x" 1 1 "q" "" "") "x" 2 2 "s" "" "")
            "x" []).1 "x" = some ⟨"x", 1, 1, "q", "", ""⟩ := by
  decide

/-- C7 counterexample: for the unmatched query token `" C "`, `combined_ppp`
records the stripped string `"C"` in the missing list, not the literal query
string `" C "`. -/
theorem C7_counterexample :
    combinedPPP [] [" C "] = ⟨0, [], ["C"]⟩ ∧ ("C" : String) ≠ " C " := by
  decide

/-- C9: a query that strips to the empty string is skipped by `combined_ppp`:
it is not looked up and contributes to neither the total nor either list. -/
theorem C9_blank_queries_skipped (cache : Store) (l1 l2 : List String) (x : String)
    (h : pyStrip x = "") :
    combinedPPP cache (l1 ++ x :: l2) = combinedPPP cache (l1 ++ l2) := by
  have hs : ∀ acc, combinedStep cache acc x = acc := by
    intro acc
    simp [combinedStep, h]
  unfold combinedPPP
  rw [List.foldl_append, List.foldl_append, List.foldl_cons, hs]

/-- C9 witness at a concrete input. -/
theorem C9_blank_queries_skipped_witness :
    pyStrip " " = "" ∧
      combinedPPP [] (["a"] ++ " " :: ["b"]) = combinedPPP [] (["a"] ++ ["b"]) :=
  ⟨by decide, C9_blank_queries_skipped [] ["a"] ["b"] " " (by decide)⟩

/-- C10: in a store with no empty key that holds some record with an empty
slug, `_find` on an empty or whitespace-only query returns a record (the
first fallback-scan match) rather than none: the scan compares the normalized
empty query with each record's normalized slug. -/
theorem C10_blank_query_matches_empty_slug (cache : Store) (q : String)
    (hq : pyNorm q = "") (hk : ∀ p ∈ cache, p.1 ≠ "")
    (he : ∃ v ∈ dictValues cache, v.slug = "") :
    find cache q =
        List.find? (fun v => pyNorm v.name == "" || pyNorm v.slug == "") (dictValues cache) ∧
      (find cache q).isSome = true := by
  have hget : dictGet cache "" = none := by
    have hnone : List.find? (fun p => p.1 == "") cache = none := by
      rw [List.find?_eq_none]
      intro p hp
      simpa using hk p hp
    simp [dictGet, hnone]
  have hfind : find cache q =
      List.find? (fun v => pyNorm v.name == "" || pyNorm v.slug == "") (dictValues cache) := by
    simp only [find, hq, hget]
  refine ⟨hfind, ?_⟩
  rw [hfind]
  rw [List.find?_isSome]
  obtain ⟨v, hv, hslug⟩ := he
  exact ⟨v, hv, by simp [hslug, show pyNorm "" = "" from rfl]⟩

/-- C10 witness at a concrete input. -/
theorem C10_blank_query_matches_empty_slug_witness :
    pyNorm "  " = "" ∧
      (find [("a", ⟨"A", 100, 1, "", "", ""⟩)] "  ").isSome = true :=
  ⟨by decide,
    (C10_blank_query_matches_empty_slug [("a", ⟨"A", 100, 1, "", "", ""⟩)] "  "
        (by decide) (by decide) ⟨⟨"A", 100, 1, "", "", ""⟩, by decide, rfl⟩).2⟩

/-- C4 amended: after `add_or_update` of a record with non-empty name and
non-empty slug, `find` on the name and on the slug both return that record;
the update preserves well-formedness and the derived-key discipline; and in
every well-formed key-disciplined store each record is reachable under its
normalized name or (when non-empty) its normalized slug — but, as
`C4_counterexample` shows, not necessarily under both. -/
theorem C4_amended (cache : Store) (name : String) (ppp : ℚ) (rank : Int)
    (slug date region : String) (hn : name ≠ "") (hs : slug ≠ "") :
    (find (updateCountry cache name ppp rank slug date region) name =
        some ⟨name, ppp, rank, slug, date, region⟩ ∧
      find (updateCountry cache name ppp rank slug date region) slug =
        some ⟨name, ppp, rank, slug, date, region⟩) ∧
    (WellFormed cache → WellFormed (updateCountry cache name ppp rank slug date region)) ∧
    (KeyDiscipline cache → KeyDiscipline (updateCountry cache name ppp rank slug date region)) ∧
    (∀ d : Store, WellFormed d → KeyDiscipline d → ∀ p ∈ d,
      find d p.2.name = some p.2 ∨ (p.2.slug ≠ "" ∧ find d p.2.slug = some p.2)) := by
  refine ⟨⟨?_, ?_⟩, ?_, ?_, ?_⟩
  · exact find_of_dictGet _ _ _
      (insertAll_get_mem _ cache _ _ (name_mem_makeIndexKeys name slug hn))
  · exact find_of_dictGet _ _ _
      (insertAll_get_mem _ cache _ _ (slug_mem_makeIndexKeys name slug hs))
  · exact fun wf => wellFormed_insertAll _ cache _ wf
  · intro hd p hp
    rcases mem_insertAll _ cache _ p hp with hp1 | ⟨hk, he⟩
    · exact hd p hp1
    · rcases mem_makeIndexKeys name slug p.1 hk with ⟨hn1, hkey⟩ | ⟨hs1, hkey⟩
      · left
        rw [hkey, he]
      · right
        rw [he]
        exact ⟨hs1, hkey⟩
  · intro d wf kd p hp
    rcases kd p hp with hk | ⟨hs1, hk⟩
    · left
      exact find_of_dictGet d p.2.name p.2 (by rw [← hk]; exact dictGet_of_mem d p wf hp)
    · right
      exact ⟨hs1, find_of_dictGet d p.2.slug p.2 (by rw [← hk]; exact dictGet_of_mem d p wf hp)⟩

/-- C5 amended: when the query matches nothing, `delete_entry` leaves the
store and archive unchanged and reports no record; on success it appends the
located record to the archive and removes every binding to it, after which no
query at all resolves to it via `find`, and its former keys resolve to `none`
provided no remaining record's normalized name or slug equals them (without
that proviso the fallback scan may return a shadowed record, see
`C5_counterexample`). -/
theorem C5_amended (cache : Store) (q : String) (archive : List Entry) :
    (find cache q = none → deleteEntry cache q archive = (cache, archive, none)) ∧
    (∀ e, find cache q = some e →
      (deleteEntry cache q archive).2.1 = archive ++ [e] ∧
      (deleteEntry cache q archive).2.2 = some e ∧
      (∀ s, find (deleteEntry cache q archive).1 s ≠ some e) ∧
      (KeyDiscipline cache → ∀ s,
        (∀ v ∈ dictValues (deleteEntry cache q archive).1,
          pyNorm v.name ≠ pyNorm s ∧ pyNorm v.slug ≠ pyNorm s) →
        find (deleteEntry cache q archive).1 s = none)) := by
  constructor
  · intro h
    simp [deleteEntry, h]
  · intro e he
    have hd : deleteEntry cache q archive =
        (cache.filter (fun p => decide (p.2 ≠ e)), archive ++ [e], some e) := by
      simp [deleteEntry, he]
    rw [hd]
    refine ⟨rfl, rfl, ?_, ?_⟩
    · intro s hfs
      have hv := find_mem _ s e hfs
      simp only [dictValues, List.mem_map] at hv
      obtain ⟨p, hp, hpe⟩ := hv
      have hpf := List.of_mem_filter hp
      simp at hpf
      exact hpf (by rw [hpe])
    · intro kd s hnov
      unfold find
      have hget : dictGet (cache.filter (fun p => decide (p.2 ≠ e))) (pyNorm s) = none := by
        cases hg : dictGet (cache.filter (fun p => decide (p.2 ≠ e))) (pyNorm s) with
        | none => rfl
        | some v =>
          exfalso
          obtain ⟨p, hp, hpk, hpv⟩ := dictGet_some_mem _ _ _ hg
          have hpc : p ∈ cache := List.mem_of_mem_filter hp
          have hvv : v ∈ dictValues (cache.filter (fun p => decide (p.2 ≠ e))) := by
            simp only [dictValues, List.mem_map]
            exact ⟨p, hp, hpv⟩
          rcases kd p hpc with hk | ⟨hs1, hk⟩
          · exact (hnov v hvv).1 (by rw [← hpv, ← hk, hpk])
          · exact (hnov v hvv).2 (by rw [← hpv, ← hk, hpk])
      rw [hget]
      rw [List.find?_eq_none]
      intro v hv
      have := hnov v hv
      simp [beq_iff_eq]
      exact this

/-- C6: `merge_deleted_back` partitions the archive by live conflict: the
kept list is a sublist of the archive; a record conflicting with the original
live store is kept; no live binding is overwritten; every record not kept is
inserted under each of its index keys; and every kept record conflicts with a
live record of the final store (conflicts are checked against the evolving
store, so a restored record blocks later duplicates). -/
theorem C6_restore_partition (cache : Store) (items : List Entry) :
    ((mergeDeletedBack cache items).2.Sublist items) ∧
    (∀ e ∈ items, conflictsWith cache e = true →
      e ∈ (mergeDeletedBack cache items).2) ∧
    (∀ k v, dictGet cache k = some v → dictGet (mergeDeletedBack cache items).1 k = some v) ∧
    (∀ e ∈ items, e ∉ (mergeDeletedBack cache items).2 →
      ∀ k ∈ makeIndexKeys e.name e.slug, dictGet (mergeDeletedBack cache items).1 k = some e) ∧
    (∀ e ∈ (mergeDeletedBack cache items).2,
      conflictsWith (mergeDeletedBack cache items).1 e = true) :=
  ⟨merge_keep_sublist items cache,
    fun e he hc => merge_conflict_kept items cache e he hc,
    fun k v h => merge_preserves_get items cache k v h,
    fun e he hk k hmem => merge_restored_indexed items cache e he hk k hmem,
    fun e he => merge_kept_conflicts items cache e he⟩

/-- C7 amended: `combined_ppp` never fails; when no query matches it returns
zero total, an empty found list, and as missing the *stripped* (not literal,
see `C7_counterexample`) non-blank query strings in order; when every query
matches it returns the sum of the found records' ppp and their names in
order with nothing missing; and on records `A(ppp=100)`, `B(ppp=250)` the
queries `["A","B","C"]` give total 350, found `["A","B"]`, missing `["C"]`. -/
theorem C7_amended (cache : Store) (queries : List String) :
    ((∀ x ∈ queries, pyStrip x ≠ "" → find cache (pyStrip x) = none) →
      combinedPPP cache queries =
        ⟨0, [], (queries.map pyStrip).filter (fun s => !(s == ""))⟩) ∧
    ((∀ x ∈ queries, pyStrip x ≠ "" ∧ (find cache (pyStrip x)).isSome = true) →
      combinedPPP cache queries =
        ⟨(queries.map (fun x => ((find cache (pyStrip x)).map Entry.ppp).getD 0)).sum,
          queries.map (fun x => ((find cache (pyStrip x)).map Entry.name).getD ""),
          []⟩) ∧
    combinedPPP [("a", ⟨"A", 100, 1, "", "", ""⟩), ("b", ⟨"B", 250, 2, "", "", ""⟩)]
        ["A", "B", "C"] = ⟨350, ["A", "B"], ["C"]⟩ := by
  refine ⟨?_, ?_, ?_⟩
  · intro h
    unfold combinedPPP
    rw [combined_go_miss cache queries _ h]
    simp
  · intro h
    unfold combinedPPP
    rw [combined_go_hit cache queries _ h]
    simp
  · simp +decide [combinedPPP, combinedStep, find, dictGet, dictValues, pyStrip, pyNorm,
      pyLower]
    norm_num

/-- C4 witness at the claim's own example. -/
theorem C4_amended_witness :
    ("France" : String) ≠ "" ∧ ("france-x" : String) ≠ "" ∧
      find (updateCountry [] "France" 5 1 "france-x" "" "") "France" =
        some ⟨"France", 5, 1, "france-x", "", ""⟩ ∧
      find (updateCountry [] "France" 5 1 "france-x" "" "") "france-x" =
        some ⟨"France", 5, 1, "france-x", "", ""⟩ :=
  ⟨by decide, by decide,
    ((C4_amended [] "France" 5 1 "france-x" "" "" (by decide) (by decide)).1).1,
    ((C4_amended [] "France" 5 1 "france-x" "" "" (by decide) (by decide)).1).2⟩

/-- C5 witness at a concrete store. -/
theorem C5_amended_witness :
    find [("x", ⟨"x", 1, 1, "", "", ""⟩)] "x" = some ⟨"x", 1, 1, "", "", ""⟩ ∧
      (deleteEntry [("x", ⟨"x", 1, 1, "", "", ""⟩)] "x" []).2.1 =
        [] ++ [⟨"x", 1, 1, "", "", ""⟩] :=
  ⟨by decide, ((C5_amended [("x", ⟨"x", 1, 1, "", "", ""⟩)] "x" []).2 _ (by decide)).1⟩

/-- C6 witness at a concrete store and archive. -/
theorem C6_restore_partition_witness :
    conflictsWith [("x", ⟨"x", 1, 1, "", "", ""⟩)] ⟨"x", 2, 2, "", "", ""⟩ = true ∧
      (⟨"x", 2, 2, "", "", ""⟩ : Entry) ∈
        (mergeDeletedBack [("x", ⟨"x", 1, 1, "", "", ""⟩)] [⟨"x", 2, 2, "", "", ""⟩]).2 :=
  ⟨by decide,
    (C6_restore_partition [("x", ⟨"x", 1, 1, "", "", ""⟩)] [⟨"x", 2, 2, "", "", ""⟩]).2.1
      ⟨"x", 2, 2, "", "", ""⟩ (by decide) (by decide)⟩

/-- C7 witness at a concrete all-miss input. -/
theorem C7_amended_witness :
    (∀ x ∈ ["z"], pyStrip x ≠ "" → find ([] : Store) (pyStrip x) = none) ∧
      combinedPPP [] ["z"] = ⟨0, [], (["z"].map pyStrip).filter (fun s => !(s == ""))⟩ :=
  ⟨by decide, (C7_amended [] ["z"]).1 (by decide)⟩

theorem contains_iff_mem (l : List String) (s : String) : l.contains s = true ↔ s ∈ l :=
  List.elem_iff

theorem uniqueFirst_cons (a : Entry) (rest : List Entry) (seen : List String) :
    uniqueFirst (a :: rest) seen =
      if (dedupKey a == "" || seen.contains (dedupKey a)) = true then uniqueFirst rest seen
      else a :: uniqueFirst rest (dedupKey a :: seen) := rfl

theorem uniqueFirst_cons_skip (a : Entry) (rest : List Entry) (seen : List String)
    (h : (dedupKey a == "" || seen.contains (dedupKey a)) = true) :
    uniqueFirst (a :: rest) seen = uniqueFirst rest seen := by
  rw [uniqueFirst_cons, if_pos h]

theorem uniqueFirst_cons_keep (a : Entry) (rest : List Entry) (seen : List String)
    (h : (dedupKey a == "" || seen.contains (dedupKey a)) = false) :
    uniqueFirst (a :: rest) seen = a :: uniqueFirst rest (dedupKey a :: seen) := by
  rw [uniqueFirst_cons, if_neg (by simp only [Bool.not_eq_true]; exact h)]

theorem keepCond_iff (a : Entry) (seen : List String) :
    (dedupKey a == "" || seen.contains (dedupKey a)) = false ↔
      dedupKey a ≠ "" ∧ dedupKey a ∉ seen := by
  rw [Bool.or_eq_false_iff]
  constructor
  · rintro ⟨h1, h2⟩
    refine ⟨by simpa using h1, fun hm => ?_⟩
    rw [(contains_iff_mem seen (dedupKey a)).2 hm] at h2
    cases h2
  · rintro ⟨h1, h2⟩
    refine ⟨by simpa using h1, ?_⟩
    rw [← Bool.not_eq_true]
    intro hm
    exact h2 ((contains_iff_mem seen (dedupKey a)).1 hm)

theorem uniqueFirst_subset (l : List Entry) :
    ∀ (seen : List String) (v : Entry), v ∈ uniqueFirst l seen →
      v ∈ l ∧ dedupKey v ≠ "" ∧ dedupKey v ∉ seen := by
  induction l with
  | nil =>
    intro seen v h
    simp [uniqueFirst] at h
  | cons a rest ih =>
    intro seen v h
    by_cases hc : (dedupKey a == "" || seen.contains (dedupKey a)) = true
    · rw [uniqueFirst_cons_skip a rest seen hc] at h
      obtain ⟨h1, h2, h3⟩ := ih seen v h
      exact ⟨List.mem_cons_of_mem _ h1, h2, h3⟩
    · have hcf : (dedupKey a == "" || seen.contains (dedupKey a)) = false := by
        simpa using hc
      obtain ⟨hk, hns⟩ := (keepCond_iff a seen).1 hcf
      rw [uniqueFirst_cons_keep a rest seen hcf] at h
      rcases List.mem_cons.1 h with h1 | h1
      · subst h1
        exact ⟨List.mem_cons_self _ _, hk, hns⟩
      · obtain ⟨h1, h2, h3⟩ := ih _ v h1
        exact ⟨List.mem_cons_of_mem _ h1, h2, fun hm => h3 (List.mem_cons_of_mem _ hm)⟩

theorem uniqueFirst_pairwise (l : List Entry) :
    ∀ seen : List String,
      (uniqueFirst l seen).Pairwise (fun a b => dedupKey a ≠ dedupKey b) := by
  induction l with
  | nil =>
    intro seen
    simp [uniqueFirst]
  | cons a rest ih =>
    intro seen
    by_cases hc : (dedupKey a == "" || seen.contains (dedupKey a)) = true
    · rw [uniqueFirst_cons_skip a rest seen hc]
      exact ih seen
    · have hcf : (dedupKey a == "" || seen.contains (dedupKey a)) = false := by
        simpa using hc
      rw [uniqueFirst_cons_keep a rest seen hcf]
      refine List.Pairwise.cons ?_ (ih _)
      intro b hb hab
      obtain ⟨hb1, hb2, hb3⟩ := uniqueFirst_subset rest _ b hb
      exact hb3 (by rw [← hab]; exact List.mem_cons_self _ _)

theorem uniqueFirst_first (l : List Entry) :
    ∀ (seen : List String) (v : Entry), v ∈ l → dedupKey v ≠ "" → dedupKey v ∉ seen →
      ∃ w ∈ uniqueFirst l seen,
        List.find? (fun w => decide (dedupKey w = dedupKey v)) l = some w := by
  induction l with
  | nil =>
    intro seen v hv
    simp at hv
  | cons a rest ih =>
    intro seen v hv hk hs
    by_cases hav : dedupKey a = dedupKey v
    · have hcf : (dedupKey a == "" || seen.contains (dedupKey a)) = false :=
        (keepCond_iff a seen).2 ⟨by rw [hav]; exact hk, by rw [hav]; exact hs⟩
      refine ⟨a, ?_, ?_⟩
      · rw [uniqueFirst_cons_keep a rest seen hcf]
        exact List.mem_cons_self _ _
      · rw [List.find?_cons_of_pos]
        simp [hav]
    · have hv' : v ∈ rest := by
        rcases List.mem_cons.1 hv with h1 | h1
        · exact ((hav (by rw [h1])).elim)
        · exact h1
      have hfind : List.find? (fun w => decide (dedupKey w = dedupKey v)) (a :: rest) =
          List.find? (fun w => decide (dedupKey w = dedupKey v)) rest := by
        rw [List.find?_cons_of_neg]
        simp [hav]
      rw [hfind]
      by_cases hcond : (dedupKey a == "" || seen.contains (dedupKey a)) = true
      · rw [uniqueFirst_cons_skip a rest seen hcond]
        exact ih seen v hv' hk hs
      · have hcf : (dedupKey a == "" || seen.contains (dedupKey a)) = false := by
          simpa using hcond
        rw [uniqueFirst_cons_keep a rest seen hcf]
        have hs' : dedupKey v ∉ dedupKey a :: seen := by
          intro hm
          rcases List.mem_cons.1 hm with h1 | h1
          · exact hav h1.symm
          · exact hs h1
        obtain ⟨w, hw1, hw2⟩ := ih _ v hv' hk hs'
        exact ⟨w, List.mem_cons_of_mem _ hw1, hw2⟩

/-- C8: `save_data` deduplicates the cache's records by normalized name (or
normalized slug when the name normalizes to empty), first occurrence under
dict-value iteration winning, then writes exactly those records sorted by
rank ascending with rank 0 replaced by the sentinel `10^12` (so unranked
records sort last) and ties broken by normalized name ascending. -/
theorem C8_save_dedup_sort (cache : Store) (ext : Bool) :
    (saveData cache ext).rows =
        (List.insertionSort saveLe (uniqueFirst (dictValues cache) [])).map
          (if ext then renderExtRow else renderSimpleRow) ∧
      List.Sorted saveLe (List.insertionSort saveLe (uniqueFirst (dictValues cache) [])) ∧
      (List.insertionSort saveLe (uniqueFirst (dictValues cache) [])).Perm
        (uniqueFirst (dictValues cache) []) ∧
      (∀ v ∈ uniqueFirst (dictValues cache) [], v ∈ dictValues cache ∧ dedupKey v ≠ "") ∧
      (uniqueFirst (dictValues cache) []).Pairwise (fun a b => dedupKey a ≠ dedupKey b) ∧
      (∀ v ∈ dictValues cache, dedupKey v ≠ "" →
        ∃ w ∈ uniqueFirst (dictValues cache) [],
          List.find? (fun w => decide (dedupKey w = dedupKey v)) (dictValues cache) =
            some w) := by
  refine ⟨?_, ?_, ?_, ?_, ?_, ?_⟩
  · cases ext <;> simp [saveData]
  · exact List.sorted_insertionSort saveLe _
  · exact List.perm_insertionSort saveLe _
  · intro v hv
    obtain ⟨h1, h2, h3⟩ := uniqueFirst_subset (dictValues cache) [] v hv
    exact ⟨h1, h2⟩
  · exact uniqueFirst_pairwise (dictValues cache) []
  · intro v hv hk
    exact uniqueFirst_first (dictValues cache) [] v hv hk (by simp)

/-- C8 witness at a concrete two-record store sharing a dedup key. -/
theorem C8_save_dedup_sort_witness :
    dedupKey ⟨"A", 1, 1, "", "", ""⟩ ≠ "" ∧
      ∃ w ∈ uniqueFirst
          (dictValues [("a", ⟨"A", 1, 1, "", "", ""⟩), ("x", ⟨" a", 2, 2, "", "", ""⟩)]) [],
        List.find? (fun w => decide (dedupKey w = dedupKey ⟨"A", 1, 1, "", "", ""⟩))
          (dictValues [("a", ⟨"A", 1, 1, "", "", ""⟩), ("x", ⟨" a", 2, 2, "", "", ""⟩)]) =
          some w :=
  ⟨by decide,
    (C8_save_dedup_sort [("a", ⟨"A", 1, 1, "", "", ""⟩), ("x", ⟨" a", 2, 2, "", "", ""⟩)]
        false).2.2.2.2.2 ⟨"A", 1, 1, "", "", ""⟩ (by decide) (by decide)⟩

/-! ### Save/load round-trip lemmas (C3) -/

theorem getLast?_cons_ne {α : Type} (a : α) (rest : List α) (h : rest ≠ []) :
    (a :: rest).getLast? = rest.getLast? := by
  cases rest with
  | nil => exact absurd rfl h
  | cons b t => simp [List.getLast?_cons]

theorem dropWhile_head?_not (p : Char → Bool) (l : List Char) (c : Char)
    (h : (l.dropWhile p).head? = some c) : p c = false := by
  induction l with
  | nil => simp at h
  | cons a rest ih =>
    by_cases hp : p a = true
    · rw [List.dropWhile_cons_of_pos hp] at h
      exact ih h
    · rw [List.dropWhile_cons_of_neg hp] at h
      simp at h
      subst h
      simpa using hp

theorem dropWhile_eq_self_of_head (p : Char → Bool) (l : List Char)
    (h : ∀ c, l.head? = some c → p c = false) : l.dropWhile p = l := by
  cases l with
  | nil => rfl
  | cons a rest =>
    have := h a rfl
    rw [List.dropWhile_cons_of_neg (by simp [this])]

theorem getLast?_dropWhile (p : Char → Bool) (l : List Char)
    (h : l.dropWhile p ≠ []) : (l.dropWhile p).getLast? = l.getLast? := by
  induction l with
  | nil => simp at h
  | cons a rest ih =>
    by_cases hp : p a = true
    · rw [List.dropWhile_cons_of_pos hp] at h ⊢
      have hrest : rest ≠ [] := by
        intro hr
        rw [hr] at h
        simp at h
      rw [ih h, getLast?_cons_ne a rest hrest]
    · rw [List.dropWhile_cons_of_neg hp]

/-- The characters of a stripped string: no leading whitespace. -/
theorem pyStrip_head_not_ws (s : String) (c : Char)
    (h : (pyStrip s).data.head? = some c) : c.isWhitespace = false := by
  unfold pyStrip at h
  simp only [List.head?_reverse] at h
  have hne : (s.data.dropWhile Char.isWhitespace).reverse.dropWhile Char.isWhitespace ≠ [] := by
    intro hnil
    rw [hnil] at h
    simp at h
  rw [getLast?_dropWhile Char.isWhitespace _ hne, List.getLast?_reverse] at h
  exact dropWhile_head?_not Char.isWhitespace s.data c h

/-- The characters of a stripped string: no trailing whitespace. -/
theorem pyStrip_getLast_not_ws (s : String) (c : Char)
    (h : (pyStrip s).data.getLast? = some c) : c.isWhitespace = false := by
  unfold pyStrip at h
  simp only [List.getLast?_reverse] at h
  exact dropWhile_head?_not Char.isWhitespace _ c h

theorem pyStrip_mk_eq_self (l : List Char)
    (hh : ∀ c, l.head? = some c → c.isWhitespace = false)
    (hl : ∀ c, l.getLast? = some c → c.isWhitespace = false) :
    pyStrip (String.mk l) = String.mk l := by
  unfold pyStrip
  have h1 : l.dropWhile Char.isWhitespace = l := dropWhile_eq_self_of_head _ l hh
  have h2 : l.reverse.dropWhile Char.isWhitespace = l.reverse := by
    refine dropWhile_eq_self_of_head _ l.reverse ?_
    intro c hc
    rw [List.head?_reverse] at hc
    exact hl c hc
  show String.mk (((String.mk l).data.dropWhile
      Char.isWhitespace).reverse.dropWhile Char.isWhitespace).reverse = String.mk l
  have hdata : (String.mk l).data = l := rfl
  rw [hdata, h1, h2, List.reverse_reverse]

theorem pyStrip_idem (s : String) : pyStrip (pyStrip s) = pyStrip s := by
  cases hd : pyStrip s with
  | mk l =>
    rw [← hd]
    have hh : ∀ c, (pyStrip s).data.head? = some c → c.isWhitespace = false :=
      pyStrip_head_not_ws s
    have hl : ∀ c, (pyStrip s).data.getLast? = some c → c.isWhitespace = false :=
      pyStrip_getLast_not_ws s
    calc pyStrip (pyStrip s) = pyStrip (String.mk (pyStrip s).data) := by rfl
      _ = String.mk (pyStrip s).data := pyStrip_mk_eq_self (pyStrip s).data hh hl
      _ = pyStrip s := rfl

theorem pyNorm_pyStrip (s : String) : pyNorm (pyStrip s) = pyNorm s := by
  unfold pyNorm
  rw [pyStrip_idem]

/-- Strings made of non-whitespace characters strip to themselves. -/
theorem pyStrip_of_no_ws (l : List Char) (h : ∀ c ∈ l, c.isWhitespace = false) :
    pyStrip (String.mk l) = String.mk l := by
  refine pyStrip_mk_eq_self l ?_ ?_
  · intro c hc
    cases l with
    | nil => simp at hc
    | cons a rest =>
      simp at hc
      exact h c (by rw [hc]; exact List.mem_cons_self _ _)
  · intro c hc
    exact h c (List.mem_of_mem_getLast? hc)

theorem digitChar_mem (d : Nat) : digitChar d ∈ digitList := by
  unfold digitChar
  split <;> decide

theorem digitList_isDigit (c : Char) (h : c ∈ digitList) : c.isDigit = true := by
  fin_cases h <;> decide

theorem digitList_not_ws (c : Char) (h : c ∈ digitList) : c.isWhitespace = false := by
  fin_cases h <;> decide

theorem digitList_props (c : Char) (h : c ∈ digitList) :
    c ≠ '-' ∧ c ≠ '+' ∧ c ≠ ',' ∧ c ≠ ' ' ∧ c ≠ '$' ∧ isCleanClass c = true := by
  fin_cases h <;> refine ⟨by decide, by decide, by decide, by decide, by decide, by decide⟩

theorem digitVal_digitChar (d : Nat) (h : d < 10) : digitVal (digitChar d) = d := by
  interval_cases d <;> decide

theorem natDecAux_mem (fuel : Nat) :
    ∀ n, n < fuel → ∀ c ∈ natDecAux fuel n, c ∈ digitList := by
  induction fuel with
  | zero =>
    intro n hn
    omega
  | succ fuel ih =>
    intro n hn c hc
    unfold natDecAux at hc
    by_cases h10 : n < 10
    · rw [if_pos h10] at hc
      simp at hc
      rw [hc]
      exact digitChar_mem n
    · rw [if_neg h10] at hc
      rcases List.mem_append.1 hc with h1 | h1
      · exact ih (n / 10) (by omega) c h1
      · simp at h1
        rw [h1]
        exact digitChar_mem _

theorem natDecAux_ne_nil (fuel n : Nat) (h : n < fuel) : natDecAux fuel n ≠ [] := by
  cases fuel with
  | zero => omega
  | succ fuel =>
    unfold natDecAux
    by_cases h10 : n < 10
    · rw [if_pos h10]
      simp
    · rw [if_neg h10]
      simp

theorem digitsVal_concat (l : List Char) (c : Char) :
    digitsVal (l ++ [c]) = digitsVal l * 10 + digitVal c := by
  unfold digitsVal
  rw [List.foldl_append]
  rfl

theorem digitsVal_natDecAux (fuel : Nat) :
    ∀ n, n < fuel → digitsVal (natDecAux fuel n) = n := by
  induction fuel with
  | zero =>
    intro n hn
    omega
  | succ fuel ih =>
    intro n hn
    unfold natDecAux
    by_cases h10 : n < 10
    · rw [if_pos h10]
      show digitsVal [digitChar n] = n
      unfold digitsVal
      simp [digitVal_digitChar n h10]
    · rw [if_neg h10]
      rw [digitsVal_concat, ih (n / 10) (by omega), digitVal_digitChar (n % 10) (by omega)]
      omega

theorem natDecChars_mem (n : Nat) : ∀ c ∈ natDecChars n, c ∈ digitList :=
  natDecAux_mem (n + 1) n (by omega)

theorem natDecChars_ne_nil (n : Nat) : natDecChars n ≠ [] :=
  natDecAux_ne_nil (n + 1) n (by omega)

theorem digitsVal_natDecChars (n : Nat) : digitsVal (natDecChars n) = n :=
  digitsVal_natDecAux (n + 1) n (by omega)

theorem takeDigits_all (l : List Char) (h : ∀ c ∈ l, c.isDigit = true) :
    takeDigits l = (l, []) := by
  induction l with
  | nil => rfl
  | cons a rest ih =>
    unfold takeDigits
    rw [if_pos (h a (List.mem_cons_self _ _)),
      ih (fun c hc => h c (List.mem_cons_of_mem _ hc))]

theorem pyFloatCore_digits (l : List Char) (hne : l ≠ [])
    (h : ∀ c ∈ l, c ∈ digitList) : pyFloatCore l = some ((digitsVal l : ℚ)) := by
  have ht : takeDigits l = (l, []) :=
    takeDigits_all l (fun c hc => digitList_isDigit c (h c hc))
  unfold pyFloatCore
  rw [ht]
  simp [hne, afterMantissa]

theorem pyFloat_digits (l : List Char) (hne : l ≠ []) (h : ∀ c ∈ l, c ∈ digitList) :
    pyFloat (String.mk l) = some ((digitsVal l : ℚ)) := by
  have hs : pyStrip (String.mk l) = String.mk l :=
    pyStrip_of_no_ws l (fun c hc => digitList_not_ws c (h c hc))
  unfold pyFloat
  rw [hs]
  have hdata : (String.mk l).data = l := rfl
  rw [hdata]
  cases l with
  | nil => exact absurd rfl hne
  | cons a rest =>
    have ha := digitList_props a (h a (List.mem_cons_self _ _))
    have hcore := pyFloatCore_digits (a :: rest) hne h
    cases hha : a == '-' with
    | true =>
      exact absurd (by simpa using hha) ha.1
    | false =>
      cases hhb : a == '+' with
      | true => exact absurd (by simpa using hhb) ha.2.1
      | false =>
        split
        · rename_i heq
          rw [List.cons.injEq] at heq
          exact absurd heq.1 ha.1
        · rename_i heq
          rw [List.cons.injEq] at heq
          exact absurd heq.1 ha.2.1
        · exact hcore

theorem pyFloat_neg_digits (l : List Char) (hne : l ≠ []) (h : ∀ c ∈ l, c ∈ digitList) :
    pyFloat (String.mk ('-' :: l)) = some (-(digitsVal l : ℚ)) := by
  have hs : pyStrip (String.mk ('-' :: l)) = String.mk ('-' :: l) := by
    refine pyStrip_of_no_ws _ ?_
    intro c hc
    rcases List.mem_cons.1 hc with h1 | h1
    · rw [h1]
      decide
    · exact digitList_not_ws c (h c h1)
  unfold pyFloat
  rw [hs]
  have hdata : (String.mk ('-' :: l)).data = '-' :: l := rfl
  rw [hdata]
  split
  · rename_i r heq
    rw [List.cons.injEq] at heq
    rw [← heq.2, pyFloatCore_digits l hne h]
    rfl
  · rename_i r heq
    simp at heq
  · rename_i h1 h2
    exact absurd rfl (h1 l)

theorem pyFloat_intRepr (i : Int) : pyFloat (intRepr i) = some ((i : ℚ)) := by
  unfold intRepr
  by_cases hi : i < 0
  · rw [if_pos hi,
      pyFloat_neg_digits _ (natDecChars_ne_nil _) (natDecChars_mem _),
      digitsVal_natDecChars]
    have h1 : (i.natAbs : ℚ) = -(i : ℚ) := by
      rw [Int.cast_natAbs, abs_of_neg hi]
      push_cast
      ring
    rw [h1, neg_neg]
  · rw [if_neg hi,
      pyFloat_digits _ (natDecChars_ne_nil _) (natDecChars_mem _),
      digitsVal_natDecChars]
    have h1 : (i.natAbs : ℚ) = (i : ℚ) := by
      rw [Int.cast_natAbs, abs_of_nonneg (not_lt.1 hi)]
    rw [h1]

theorem truncQ_intCast (i : Int) : truncQ ((i : ℚ)) = i := by
  unfold truncQ
  by_cases h : (0 : ℚ) ≤ (i : ℚ)
  · rw [if_pos h, Int.floor_intCast]
  · rw [if_neg h, show -((i : ℚ)) = (((-i : ℤ) : ℚ)) from by push_cast; ring,
      Int.floor_intCast, neg_neg]

theorem intRepr_no_ws (i : Int) : ∀ c ∈ (intRepr i).data, c.isWhitespace = false := by
  unfold intRepr
  by_cases hi : i < 0 <;> simp only [hi, if_pos, if_neg, if_true, if_false]
  · intro c hc
    rcases List.mem_cons.1 hc with h1 | h1
    · rw [h1]
      decide
    · exact digitList_not_ws c (natDecChars_mem _ c h1)
  · intro c hc
    exact digitList_not_ws c (natDecChars_mem _ c hc)

theorem pyStrip_intRepr (i : Int) : pyStrip (intRepr i) = intRepr i := by
  have h := pyStrip_of_no_ws (intRepr i).data (intRepr_no_ws i)
  simpa using h

theorem cleanInt_intRepr (i : Int) : cleanInt (intRepr i) = i := by
  unfold cleanInt
  rw [pyStrip_intRepr, pyFloat_intRepr]
  exact truncQ_intCast i

theorem group3Rev_eq_self_of_short (l : List Char)
    (h : ∀ (c1 c2 c3 c4 : Char) (rest : List Char), l = c1 :: c2 :: c3 :: c4 :: rest → False) :
    group3Rev l = l := by
  cases l with
  | nil => rfl
  | cons a t =>
    cases t with
    | nil => rfl
    | cons b u =>
      cases u with
      | nil => rfl
      | cons c v =>
        cases v with
        | nil => rfl
        | cons d w => exact absurd rfl (fun hh => h a b c d w hh)

theorem mem_group3Rev (l : List Char) : ∀ c ∈ group3Rev l, c ∈ l ∨ c = ',' := by
  induction l using group3Rev.induct with
  | case1 c1 c2 c3 c4 rest ih =>
    intro c hc
    unfold group3Rev at hc
    simp only [List.mem_cons] at hc
    rcases hc with h | h | h | h | h
    · exact Or.inl (by simp [h])
    · exact Or.inl (by simp [h])
    · exact Or.inl (by simp [h])
    · exact Or.inr h
    · rcases ih c h with h1 | h1
      · exact Or.inl (by simp only [List.mem_cons] at h1 ⊢; tauto)
      · exact Or.inr h1
  | case2 l h =>
    intro c hc
    rw [group3Rev_eq_self_of_short l h] at hc
    exact Or.inl hc

theorem filterSep_group3Rev (l : List Char) :
    (group3Rev l).filter (fun c => !(c == ',' || c == ' ' || c == '$')) =
      l.filter (fun c => !(c == ',' || c == ' ' || c == '$')) := by
  induction l using group3Rev.induct with
  | case1 c1 c2 c3 c4 rest ih =>
    show ((c1 :: c2 :: c3 :: ',' :: group3Rev (c4 :: rest)).filter
        (fun c => !(c == ',' || c == ' ' || c == '$'))) = _
    simp only [List.filter_cons, ih]
    norm_num
  | case2 l h =>
    rw [group3Rev_eq_self_of_short l h]

theorem cleanNumber_branch1 (l : List Char) (hne : l ≠ [])
    (hclass : ∀ c ∈ l, isCleanClass c = true)
    (hnws : ∀ c ∈ l, c.isWhitespace = false)
    (v : ℚ) (hv : pyFloat (stripSeps (String.mk l)) = some v) :
    cleanNumber (String.mk l) = some v := by
  unfold cleanNumber
  rw [pyStrip_of_no_ws l hnws]
  have hdata : (String.mk l).data = l := rfl
  have hcond : (!(String.mk l).data.isEmpty && (String.mk l).data.all isCleanClass) = true := by
    rw [hdata]
    simp [List.isEmpty_iff, hne, List.all_eq_true]
    exact hclass
  rw [if_pos hcond, hv]

theorem sepPred_digit (c : Char) (h : c ∈ digitList) :
    (!(c == ',' || c == ' ' || c == '$')) = true := by
  fin_cases h <;> decide

theorem stripSeps_mk (l : List Char) :
    stripSeps (String.mk l) = String.mk (l.filter (fun c => !(c == ',' || c == ' ' || c == '$'))) :=
  rfl

theorem filterSep_digits (l : List Char) (h : ∀ c ∈ l, c ∈ digitList) :
    l.filter (fun c => !(c == ',' || c == ' ' || c == '$')) = l := by
  rw [List.filter_eq_self]
  intro c hc
  exact sepPred_digit c (h c hc)

theorem stripSeps_intRepr (i : Int) : stripSeps (intRepr i) = intRepr i := by
  unfold intRepr
  by_cases hi : i < 0 <;> simp only [hi, if_true, if_false]
  · rw [stripSeps_mk]
    congr 1
    rw [List.filter_cons]
    rw [if_pos (by decide)]
    rw [filterSep_digits _ (natDecChars_mem _)]
  · rw [stripSeps_mk]
    congr 1
    rw [filterSep_digits _ (natDecChars_mem _)]

theorem stripSeps_groupedRepr (i : Int) : stripSeps (groupedRepr i) = intRepr i := by
  unfold groupedRepr intRepr
  have hcore : ((group3Rev (natDecChars i.natAbs).reverse).reverse).filter
      (fun c => !(c == ',' || c == ' ' || c == '$')) = natDecChars i.natAbs := by
    rw [List.filter_reverse, filterSep_group3Rev, List.filter_reverse, List.reverse_reverse,
      filterSep_digits _ (natDecChars_mem _)]
  by_cases hi : i < 0
  · rw [if_pos hi, if_pos hi, stripSeps_mk, List.filter_cons, if_pos (by decide), hcore]
  · rw [if_neg hi, if_neg hi, stripSeps_mk, hcore]

theorem grouped_chars_class (i : Int) :
    ∀ c ∈ ((group3Rev (natDecChars i.natAbs).reverse).reverse),
      isCleanClass c = true ∧ c.isWhitespace = false := by
  intro c hc
  rw [List.mem_reverse] at hc
  rcases mem_group3Rev _ c hc with h1 | h1
  · rw [List.mem_reverse] at h1
    have hd := natDecChars_mem _ c h1
    exact ⟨(digitList_props c hd).2.2.2.2.2, digitList_not_ws c hd⟩
  · rw [h1]
    exact ⟨by decide, by decide⟩

theorem grouped_ne_nil (i : Int) :
    ((group3Rev (natDecChars i.natAbs).reverse).reverse) ≠ [] := by
  intro h
  have h2 : group3Rev (natDecChars i.natAbs).reverse = [] := by
    have := congrArg List.reverse h
    simpa using this
  have h3 : (natDecChars i.natAbs).reverse ≠ [] := by
    intro hh
    exact natDecChars_ne_nil _ (by simpa using congrArg List.reverse hh)
  have h4 := filterSep_group3Rev (natDecChars i.natAbs).reverse
  rw [h2] at h4
  have h5 : (natDecChars i.natAbs).reverse.filter
      (fun c => !(c == ',' || c == ' ' || c == '$')) = [] := h4.symm
  rw [List.filter_reverse, filterSep_digits _ (natDecChars_mem _)] at h5
  exact h3 (by simpa using congrArg List.reverse h5)

theorem cleanNumber_groupedRepr (i : Int) : cleanNumber (groupedRepr i) = some ((i : ℚ)) := by
  have hv : pyFloat (stripSeps (groupedRepr i)) = some ((i : ℚ)) := by
    rw [stripSeps_groupedRepr, pyFloat_intRepr]
  unfold groupedRepr at hv ⊢
  by_cases hi : i < 0 <;> simp only [hi, if_true, if_false] at hv ⊢
  · refine cleanNumber_branch1 _ (by simp) ?_ ?_ _ hv
    · intro c hc
      rcases List.mem_cons.1 hc with h1 | h1
      · rw [h1]
        decide
      · exact (grouped_chars_class i c h1).1
    · intro c hc
      rcases List.mem_cons.1 hc with h1 | h1
      · rw [h1]
        decide
      · exact (grouped_chars_class i c h1).2
  · refine cleanNumber_branch1 _ (grouped_ne_nil i) ?_ ?_ _ hv
    · intro c hc
      exact (grouped_chars_class i c hc).1
    · intro c hc
      exact (grouped_chars_class i c hc).2

theorem cleanNumber_intRepr (i : Int) : cleanNumber (intRepr i) = some ((i : ℚ)) := by
  have hv : pyFloat (stripSeps (intRepr i)) = some ((i : ℚ)) := by
    rw [stripSeps_intRepr, pyFloat_intRepr]
  unfold intRepr at hv ⊢
  by_cases hi : i < 0 <;> simp only [hi, if_true, if_false] at hv ⊢
  · refine cleanNumber_branch1 _ (by simp) ?_ ?_ _ hv
    · intro c hc
      rcases List.mem_cons.1 hc with h1 | h1
      · rw [h1]
        decide
      · exact (digitList_props c (natDecChars_mem _ c h1)).2.2.2.2.2
    · intro c hc
      rcases List.mem_cons.1 hc with h1 | h1
      · rw [h1]
        decide
      · exact digitList_not_ws c (natDecChars_mem _ c h1)
  · refine cleanNumber_branch1 _ (natDecChars_ne_nil _) ?_ ?_ _ hv
    · intro c hc
      exact (digitList_props c (natDecChars_mem _ c hc)).2.2.2.2.2
    · intro c hc
      exact digitList_not_ws c (natDecChars_mem _ c hc)

theorem cleanNumber_renderValue (q : ℚ) :
    cleanNumber (renderValue q) = some ((truncQ q : ℚ)) := by
  unfold renderValue
  by_cases h0 : q = 0
  · rw [if_pos h0]
    have : truncQ q = 0 := by
      rw [h0]
      decide
    rw [this]
    decide
  · rw [if_neg h0]
    exact cleanNumber_groupedRepr (truncQ q)

theorem firstTruthy_pair (s : String) : firstTruthy [some s, none] = s := by
  by_cases h : s = ""
  · unfold firstTruthy
    rw [if_pos (by simp [h])]
    rw [h]
    rfl
  · unfold firstTruthy
    rw [if_neg (by simp [h])]

theorem firstTruthy_triple (s : String) : firstTruthy [some s, none, none] = s := by
  by_cases h : s = ""
  · unfold firstTruthy
    rw [if_pos (by simp [h])]
    rw [h]
    rfl
  · unfold firstTruthy
    rw [if_neg (by simp [h])]

theorem firstTruthy_quad (s : String) : firstTruthy [some s, none, none, none] = s := by
  by_cases h : s = ""
  · unfold firstTruthy
    rw [if_pos (by simp [h])]
    rw [h]
    rfl
  · unfold firstTruthy
    rw [if_neg (by simp [h])]

theorem rowGet_cia (a b c d e f : String) :
    rowGet ciaFields [a, b, c, d, e, f] "name" = some a ∧
      rowGet ciaFields [a, b, c, d, e, f] "Name" = none ∧
      rowGet ciaFields [a, b, c, d, e, f] "slug" = some b ∧
      rowGet ciaFields [a, b, c, d, e, f] "Slug" = none ∧
      rowGet ciaFields [a, b, c, d, e, f] "value" = some c ∧
      rowGet ciaFields [a, b, c, d, e, f] "Value" = none ∧
      rowGet ciaFields [a, b, c, d, e, f] "date_of_information" = some d ∧
      rowGet ciaFields [a, b, c, d, e, f] "Date_of_information" = none ∧
      rowGet ciaFields [a, b, c, d, e, f] "ranking" = some e ∧
      rowGet ciaFields [a, b, c, d, e, f] "Ranking" = none ∧
      rowGet ciaFields [a, b, c, d, e, f] "region" = some f ∧
      rowGet ciaFields [a, b, c, d, e, f] "Region" = none :=
  ⟨rfl, rfl, rfl, rfl, rfl, rfl, rfl, rfl, rfl, rfl, rfl, rfl⟩

theorem rowGet_simple (a b c : String) :
    rowGet ["country", "ppp", "rank"] [a, b, c] "country" = some a ∧
      rowGet ["country", "ppp", "rank"] [a, b, c] "Country" = none ∧
      rowGet ["country", "ppp", "rank"] [a, b, c] "name" = none ∧
      rowGet ["country", "ppp", "rank"] [a, b, c] "ppp" = some b ∧
      rowGet ["country", "ppp", "rank"] [a, b, c] "PPP" = none ∧
      rowGet ["country", "ppp", "rank"] [a, b, c] "value" = none ∧
      rowGet ["country", "ppp", "rank"] [a, b, c] "PPP (Int$)" = none ∧
      rowGet ["country", "ppp", "rank"] [a, b, c] "rank" = some c ∧
      rowGet ["country", "ppp", "rank"] [a, b, c] "Rank" = none ∧
      rowGet ["country", "ppp", "rank"] [a, b, c] "ranking" = none :=
  ⟨rfl, rfl, rfl, rfl, rfl, rfl, rfl, rfl, rfl, rfl⟩

/-- Reloading a CIA-schema row written by `save_data` yields the truncated
entry, indexed under the same keys. -/
theorem extRowParse_render (e : Entry) (ht : TrimmedEntry e) :
    extRowParse ciaFields (renderExtRow e) =
      some (truncEntry e, makeIndexKeys e.name e.slug) := by
  obtain ⟨hn, hs, hd, hr⟩ := ht
  obtain ⟨g1, g2, g3, g4, g5, g6, g7, g8, g9, g10, g11, g12⟩ :=
    rowGet_cia e.name e.slug (renderValue e.ppp) e.date (intRepr e.rank) e.region
  unfold extRowParse renderExtRow
  rw [g1, g2, g3, g4, g5, g6, g7, g8, g9, g10, g11, g12]
  rw [firstTruthy_pair, firstTruthy_pair, firstTruthy_pair, firstTruthy_pair,
    firstTruthy_pair, firstTruthy_pair]
  rw [cleanNumber_renderValue]
  rw [hn, hs, hd, hr, cleanInt_intRepr]
  rfl

/-- Reloading a simple-schema row written by `save_data` yields the truncated
entry (extras empty), indexed under its normalized name. -/
theorem simpleRowParse_render (e : Entry) (ht : TrimmedEntry e) (hs : e.slug = "")
    (hdd : e.date = "") (hrr : e.region = "") :
    simpleRowParse ["country", "ppp", "rank"] (renderSimpleRow e) =
      some (truncEntry e, [pyNorm e.name]) := by
  obtain ⟨hn, _, _, _⟩ := ht
  obtain ⟨g1, g2, g3, g4, g5, g6, g7, g8, g9, g10⟩ :=
    rowGet_simple e.name (intRepr (truncQ e.ppp)) (intRepr e.rank)
  unfold simpleRowParse renderSimpleRow
  rw [g1, g2, g3, g4, g5, g6, g7, g8, g9, g10]
  rw [firstTruthy_triple, firstTruthy_quad, firstTruthy_triple]
  rw [cleanNumber_intRepr, hn, cleanInt_intRepr]
  unfold truncEntry
  rw [hs, hdd, hrr]

theorem rowParse_trimmed (ext : Bool) (hdr row : List String) (e : Entry) (ks : List String)
    (h : rowParse ext hdr row = some (e, ks)) :
    TrimmedEntry e ∧ (ext = false → e.slug = "" ∧ e.date = "" ∧ e.region = "") := by
  cases ext with
  | true =>
    unfold rowParse extRowParse at h
    rw [if_pos rfl] at h
    cases hc : cleanNumber (firstTruthy [rowGet hdr row "value", rowGet hdr row "Value"]) with
    | none =>
      rw [hc] at h
      simp at h
    | some q =>
      rw [hc] at h
      simp only [Option.some.injEq, Prod.mk.injEq] at h
      obtain ⟨he, _⟩ := h
      refine ⟨?_, fun hcon => by cases hcon⟩
      rw [← he]
      exact ⟨pyStrip_idem _, pyStrip_idem _, pyStrip_idem _, pyStrip_idem _⟩
  | false =>
    unfold rowParse simpleRowParse at h
    rw [if_neg (by simp)] at h
    cases hc : cleanNumber (firstTruthy [rowGet hdr row "ppp", rowGet hdr row "PPP",
        rowGet hdr row "value", rowGet hdr row "PPP (Int$)"]) with
    | none =>
      rw [hc] at h
      simp at h
    | some q =>
      rw [hc] at h
      simp only [Option.some.injEq, Prod.mk.injEq] at h
      obtain ⟨he, _⟩ := h
      constructor
      · rw [← he]
        exact ⟨pyStrip_idem _, rfl, rfl, rfl⟩
      · intro _
        rw [← he]
        exact ⟨rfl, rfl, rfl⟩

theorem mapM_mem_inv (f : List String → Option (Entry × List String)) :
    ∀ (rows : List (List String)) (prs : List (Entry × List String)),
      rows.mapM f = some prs → ∀ p ∈ prs, ∃ row ∈ rows, f row = some p := by
  intro rows
  induction rows with
  | nil =>
    intro prs h p hp
    rw [List.mapM_nil] at h
    have h2 : ([] : List (Entry × List String)) = prs := Option.some.inj h
    rw [← h2] at hp
    simp at hp
  | cons row rest ih =>
    intro prs h p hp
    rw [List.mapM_cons] at h
    cases hf : f row with
    | none => rw [hf] at h; simp at h
    | some b =>
      rw [hf] at h
      cases hm : rest.mapM f with
      | none => rw [hm] at h; simp at h
      | some bs =>
        rw [hm] at h
        simp at h
        rw [← h] at hp
        rcases List.mem_cons.1 hp with h1 | h1
        · exact ⟨row, List.mem_cons_self _ _, by rw [hf, h1]⟩
        · obtain ⟨r, hr1, hr2⟩ := ih bs hm p h1
          exact ⟨r, List.mem_cons_of_mem _ hr1, hr2⟩

theorem loadRows_mapM (ext : Bool) (hdr : List String) :
    ∀ (rows : List (List String)) (prs : List (Entry × List String)) (cache : Store),
      rows.mapM (rowParse ext hdr) = some prs →
      loadRows ext hdr rows cache =
        some (prs.foldl (fun c p => insertAll c p.2 p.1) cache) := by
  intro rows
  induction rows with
  | nil =>
    intro prs cache h
    rw [List.mapM_nil] at h
    have h2 : ([] : List (Entry × List String)) = prs := Option.some.inj h
    rw [← h2]
    rfl
  | cons row rest ih =>
    intro prs cache h
    rw [List.mapM_cons] at h
    cases hf : rowParse ext hdr row with
    | none => rw [hf] at h; simp at h
    | some p =>
      obtain ⟨e0, ks0⟩ := p
      rw [hf] at h
      cases hm : rest.mapM (rowParse ext hdr) with
      | none => rw [hm] at h; simp at h
      | some ps =>
        rw [hm] at h
        simp at h
        rw [← h]
        show loadRows ext hdr (row :: rest) cache = _
        unfold loadRows
        rw [hf]
        show loadRows ext hdr rest (insertAll cache ks0 e0) = _
        rw [ih ps (insertAll cache ks0 e0) hm]
        rfl

theorem dictGet_mapPair_notmem (ks : List String) (e : Entry) (k : String) (h : k ∉ ks) :
    dictGet (ks.map (fun k0 => (k0, e))) k = none := by
  unfold dictGet
  have hf : List.find? (fun p => p.1 == k) (ks.map (fun k0 => (k0, e))) = none := by
    rw [List.find?_eq_none]
    intro q hq
    rw [List.mem_map] at hq
    obtain ⟨k0, hk0, rfl⟩ := hq
    simp only [beq_iff_eq]
    intro hc
    exact h (hc ▸ hk0)
  rw [hf]
  rfl

theorem foldl_insertAll_fresh :
    ∀ (prs : List (Entry × List String)) (cache : Store),
      ((prs.map Prod.snd).flatten).Nodup →
      (∀ k ∈ (prs.map Prod.snd).flatten, dictGet cache k = none) →
      prs.foldl (fun c p => insertAll c p.2 p.1) cache =
        cache ++ (prs.map (fun p => p.2.map (fun k => (k, p.1)))).flatten := by
  intro prs
  induction prs with
  | nil =>
    intro cache h1 h2
    simp
  | cons p rest ih =>
    intro cache h1 h2
    simp only [List.map_cons, List.flatten_cons] at h1 h2 ⊢
    rw [List.nodup_append] at h1
    obtain ⟨np, nrest, disj⟩ := h1
    have hfreshp : ∀ k ∈ p.2, dictGet cache k = none := fun k hk =>
      h2 k (List.mem_append_left _ hk)
    rw [List.foldl_cons]
    rw [show insertAll cache p.2 p.1 = cache ++ p.2.map (fun k => (k, p.1)) from
      insertAll_fresh_append p.2 cache p.1 np hfreshp]
    rw [ih (cache ++ p.2.map (fun k => (k, p.1))) nrest ?fresh2]
    · rw [List.append_assoc]
    case fresh2 =>
      intro k hk
      rw [dictGet_append, h2 k (List.mem_append_right _ hk),
        dictGet_mapPair_notmem p.2 p.1 k (fun hc => disj hc hk)]
      rfl

theorem dictValues_bindings (prs : List (Entry × List String)) :
    dictValues ((prs.map (fun p => p.2.map (fun k => (k, p.1)))).flatten) =
      (prs.map (fun p => List.replicate p.2.length p.1)).flatten := by
  unfold dictValues
  rw [List.map_flatten, List.map_map]
  congr 1
  apply List.map_congr_left
  intro p hp
  simp only [Function.comp_apply, List.map_map]
  have : (Prod.snd ∘ fun k => (k, p.1)) = Function.const String p.1 := rfl
  rw [this, List.map_const]

theorem dedup_replicate_append (e : Entry) (n : Nat) (l : List Entry) (hn : 1 ≤ n)
    (hl : e ∉ l) : (List.replicate n e ++ l).dedup = e :: l.dedup := by
  induction n with
  | zero => omega
  | succ n ih =>
    by_cases h0 : n = 0
    · subst h0
      show ([e] ++ l).dedup = e :: l.dedup
      rw [List.singleton_append]
      exact List.dedup_cons_of_not_mem hl
    · rw [List.replicate_succ, List.cons_append, List.dedup_cons_of_mem, ih (by omega)]
      exact List.mem_append_left _ (List.mem_replicate.2 ⟨h0, rfl⟩)

theorem mem_flatten_replicate (gs : List (Entry × Nat)) (x : Entry)
    (h : x ∈ (gs.map (fun g => List.replicate g.2 g.1)).flatten) : x ∈ gs.map Prod.fst := by
  rw [List.mem_flatten] at h
  obtain ⟨l, hl, hx⟩ := h
  rw [List.mem_map] at hl
  obtain ⟨g, hg, rfl⟩ := hl
  rw [List.eq_of_mem_replicate hx]
  exact List.mem_map_of_mem _ hg

theorem dedup_grouped (gs : List (Entry × Nat)) :
    (∀ g ∈ gs, 1 ≤ g.2) → (gs.map Prod.fst).Nodup →
    ((gs.map (fun g => List.replicate g.2 g.1)).flatten).dedup = gs.map Prod.fst := by
  induction gs with
  | nil =>
    intro _ _
    simp
  | cons g rest ih =>
    intro h1 h2
    rw [List.map_cons] at h2
    simp only [List.map_cons, List.flatten_cons]
    have hne : g.1 ∉ (rest.map (fun g => List.replicate g.2 g.1)).flatten := by
      intro hx
      exact (List.nodup_cons.1 h2).1 (mem_flatten_replicate rest g.1 hx)
    rw [dedup_replicate_append g.1 g.2 _ (h1 g (List.mem_cons_self _ _)) hne,
      ih (fun q hq => h1 q (List.mem_cons_of_mem _ hq)) (List.nodup_cons.1 h2).2]

theorem uniqueFirst_replicate_skip (e : Entry) (m : Nat) (l : List Entry) (seen : List String)
    (h : seen.contains (dedupKey e) = true) :
    uniqueFirst (List.replicate m e ++ l) seen = uniqueFirst l seen := by
  induction m with
  | zero => simp
  | succ m ih =>
    rw [List.replicate_succ, List.cons_append,
      uniqueFirst_cons_skip _ _ _ (by rw [h]; simp), ih]

theorem uniqueFirst_grouped (gs : List (Entry × Nat)) :
    ∀ seen : List String,
      (∀ g ∈ gs, 1 ≤ g.2 ∧ dedupKey g.1 ≠ "" ∧ dedupKey g.1 ∉ seen) →
      ((gs.map (fun g => dedupKey g.1)).Nodup) →
      uniqueFirst ((gs.map (fun g => List.replicate g.2 g.1)).flatten) seen =
        gs.map Prod.fst := by
  induction gs with
  | nil =>
    intro seen _ _
    simp [uniqueFirst]
  | cons g rest ih =>
    intro seen hcond hnd
    rw [List.map_cons] at hnd
    simp only [List.map_cons, List.flatten_cons]
    obtain ⟨hm, hk, hns⟩ := hcond g (List.mem_cons_self _ _)
    obtain ⟨m, hm2⟩ : ∃ m, g.2 = m + 1 := ⟨g.2 - 1, by omega⟩
    rw [hm2, List.replicate_succ, List.cons_append,
      uniqueFirst_cons_keep _ _ _ ((keepCond_iff _ _).2 ⟨hk, hns⟩),
      uniqueFirst_replicate_skip g.1 m _ _
        ((contains_iff_mem _ _).2 (List.mem_cons_self _ _))]
    congr 1
    apply ih (dedupKey g.1 :: seen)
    · intro q hq
      obtain ⟨a, b, c⟩ := hcond q (List.mem_cons_of_mem _ hq)
      refine ⟨a, b, fun hmm => ?_⟩
      rcases List.mem_cons.1 hmm with h1 | h1
      · exact (List.nodup_cons.1 hnd).1
          (by rw [← h1]; exact List.mem_map_of_mem (fun g => dedupKey g.1) hq)
      · exact c h1
    · exact (List.nodup_cons.1 hnd).2

theorem names_nodup (prs : List (Entry × List String)) :
    ((prs.map Prod.snd).flatten).Nodup →
    (∀ p ∈ prs, pyNorm p.1.name ∈ p.2) →
    (prs.map (fun p => pyNorm p.1.name)).Nodup := by
  induction prs with
  | nil =>
    intro _ _
    simp
  | cons p rest ih =>
    intro hnd hmem
    simp only [List.map_cons, List.flatten_cons] at hnd ⊢
    rw [List.nodup_append] at hnd
    obtain ⟨n1, n2, disj⟩ := hnd
    refine List.nodup_cons.2 ⟨?_, ih n2 (fun q hq => hmem q (List.mem_cons_of_mem _ hq))⟩
    intro hx
    rw [List.mem_map] at hx
    obtain ⟨q, hq, heq⟩ := hx
    refine disj (hmem p (List.mem_cons_self _ _)) ?_
    rw [← heq]
    rw [List.mem_flatten]
    exact ⟨q.2, List.mem_map_of_mem _ hq, hmem q (List.mem_cons_of_mem _ hq)⟩

theorem mapM_render (ext : Bool) (hdr : List String) (render : Entry → List String)
    (g : Entry → Entry × List String) :
    ∀ es : List Entry, (∀ e ∈ es, rowParse ext hdr (render e) = some (g e)) →
      (es.map render).mapM (rowParse ext hdr) = some (es.map g) := by
  intro es
  induction es with
  | nil =>
    intro _
    rfl
  | cons e rest ih =>
    intro h
    rw [List.map_cons, List.mapM_cons, h e (List.mem_cons_self _ _),
      ih (fun q hq => h q (List.mem_cons_of_mem _ hq))]
    rfl

theorem pyNorm_empty : pyNorm "" = "" := rfl

theorem name_ne_of_norm (e : Entry) (h : pyNorm e.name ≠ "") : e.name ≠ "" := by
  intro hh
  rw [hh] at h
  exact h pyNorm_empty

theorem dedupKey_name (e : Entry) (h : pyNorm e.name ≠ "") : dedupKey e = pyNorm e.name := by
  unfold dedupKey
  rw [if_neg (by simp [h])]

theorem makeIndexKeys_empty_slug (n : String) (hn : n ≠ "") :
    makeIndexKeys n "" = [pyNorm n] := by
  unfold makeIndexKeys baseKeys
  rw [if_pos (by simp)]
  rw [if_neg (by simp [hn])]

theorem storeRecords_bindings (prs : List (Entry × List String))
    (hlen : ∀ p ∈ prs, 1 ≤ p.2.length)
    (hnd : (prs.map Prod.fst).Nodup) :
    storeRecords (bindingsOf prs) = prs.map Prod.fst := by
  unfold storeRecords bindingsOf
  rw [dictValues_bindings]
  have h1 : prs.map (fun p => List.replicate p.2.length p.1) =
      (prs.map (fun p => (p.1, p.2.length))).map (fun g => List.replicate g.2 g.1) := by
    rw [List.map_map]
    rfl
  have h2 : (prs.map (fun p => (p.1, p.2.length))).map Prod.fst = prs.map Prod.fst := by
    rw [List.map_map]
    rfl
  rw [h1, ← h2]
  apply dedup_grouped
  · intro g hg
    rw [List.mem_map] at hg
    obtain ⟨p, hp, rfl⟩ := hg
    exact hlen p hp
  · rw [h2]
    exact hnd

theorem uniqueFirst_bindings (prs : List (Entry × List String))
    (hlen : ∀ p ∈ prs, 1 ≤ p.2.length)
    (hkey : ∀ p ∈ prs, pyNorm p.1.name ≠ "")
    (hnames : (prs.map (fun p => pyNorm p.1.name)).Nodup) :
    uniqueFirst (dictValues (bindingsOf prs)) [] = prs.map Prod.fst := by
  unfold bindingsOf
  rw [dictValues_bindings]
  have h1 : prs.map (fun p => List.replicate p.2.length p.1) =
      (prs.map (fun p => (p.1, p.2.length))).map (fun g => List.replicate g.2 g.1) := by
    rw [List.map_map]
    rfl
  have h2 : (prs.map (fun p => (p.1, p.2.length))).map Prod.fst = prs.map Prod.fst := by
    rw [List.map_map]
    rfl
  rw [h1, ← h2]
  apply uniqueFirst_grouped
  · intro g hg
    rw [List.mem_map] at hg
    obtain ⟨p, hp, rfl⟩ := hg
    refine ⟨hlen p hp, ?_, by simp⟩
    rw [dedupKey_name _ (hkey p hp)]
    exact hkey p hp
  · have h3 : (prs.map (fun p => (p.1, p.2.length))).map (fun g => dedupKey g.1) =
        prs.map (fun p => dedupKey p.1) := by
      rw [List.map_map]
      rfl
    rw [h3]
    have h4 : prs.map (fun p => dedupKey p.1) = prs.map (fun p => pyNorm p.1.name) :=
      List.map_congr_left (fun p hp => dedupKey_name p.1 (hkey p hp))
    rw [h4]
    exact hnames

theorem loadData_bindings (f : CSVFile) (prs : List (Entry × List String))
    (hprs : f.rows.mapM (rowParse (isCIAHeader f.header) f.header) = some prs)
    (hnodup : ((prs.map Prod.snd).flatten).Nodup) :
    loadData f = some (bindingsOf prs, isCIAHeader f.header) := by
  unfold loadData
  rw [loadRows_mapM _ _ f.rows prs [] hprs]
  rw [foldl_insertAll_fresh prs [] hnodup (fun k _ => rfl)]
  show some (([] : Store) ++ bindingsOf prs, isCIAHeader f.header) =
    some (bindingsOf prs, isCIAHeader f.header)
  rw [List.nil_append]

theorem roundtrip_core (ext : Bool) (hdr2 : List String) (render : Entry → List String)
    (prs : List (Entry × List String))
    (hnodup : ((prs.map Prod.snd).flatten).Nodup)
    (hgood : ∀ p ∈ prs, pyNorm p.1.name ≠ "" ∧ p.2 = makeIndexKeys p.1.name p.1.slug)
    (hheader2 : isCIAHeader hdr2 = ext)
    (hsave : saveData (bindingsOf prs) ext =
      ⟨hdr2,
        (List.insertionSort saveLe (uniqueFirst (dictValues (bindingsOf prs)) [])).map render⟩)
    (hrender : ∀ p ∈ prs, rowParse ext hdr2 (render p.1) =
      some (truncEntry p.1, makeIndexKeys p.1.name p.1.slug)) :
    ∃ cache2 : Store,
      loadData (saveData (bindingsOf prs) ext) = some (cache2, ext) ∧
        ((storeRecords cache2).map tripleOf).Perm
          ((storeRecords (bindingsOf prs)).map truncTriple) := by
  have hA : ∀ p ∈ prs, pyNorm p.1.name ∈ p.2 := by
    intro p hp
    rw [(hgood p hp).2]
    exact name_mem_makeIndexKeys _ _ (name_ne_of_norm _ (hgood p hp).1)
  have hlen : ∀ p ∈ prs, 1 ≤ p.2.length := fun p hp =>
    List.length_pos.2 (List.ne_nil_of_mem (hA p hp))
  have hnames : (prs.map (fun p => pyNorm p.1.name)).Nodup := names_nodup prs hnodup hA
  have hkey : ∀ p ∈ prs, pyNorm p.1.name ≠ "" := fun p hp => (hgood p hp).1
  have hes_nodup : (prs.map Prod.fst).Nodup := by
    apply List.Nodup.of_map (fun e : Entry => pyNorm e.name)
    rw [List.map_map]
    exact hnames
  have hrec1 : storeRecords (bindingsOf prs) = prs.map Prod.fst :=
    storeRecords_bindings prs hlen hes_nodup
  have huniq : uniqueFirst (dictValues (bindingsOf prs)) [] = prs.map Prod.fst :=
    uniqueFirst_bindings prs hlen hkey hnames
  have hkey_e : ∀ e ∈ prs.map Prod.fst, pyNorm e.name ≠ "" := by
    intro e he
    rw [List.mem_map] at he
    obtain ⟨p, hp, rfl⟩ := he
    exact hkey p hp
  set sorted := List.insertionSort saveLe (prs.map Prod.fst)
  have hperm : sorted.Perm (prs.map Prod.fst) := List.perm_insertionSort saveLe _
  have hrender2 : ∀ e ∈ sorted,
      rowParse ext hdr2 (render e) = some (truncEntry e, makeIndexKeys e.name e.slug) := by
    intro e he
    have he2 : e ∈ prs.map Prod.fst := hperm.mem_iff.1 he
    rw [List.mem_map] at he2
    obtain ⟨p, hp, rfl⟩ := he2
    exact hrender p hp
  have hmapM2 : (sorted.map render).mapM (rowParse ext hdr2) =
      some (sorted.map (fun e => (truncEntry e, makeIndexKeys e.name e.slug))) :=
    mapM_render ext hdr2 render _ sorted hrender2
  have hsnd : (sorted.map (fun e => (truncEntry e, makeIndexKeys e.name e.slug))).map
      Prod.snd = sorted.map (fun e => makeIndexKeys e.name e.slug) := by
    rw [List.map_map]
    rfl
  have horig_snd : prs.map Prod.snd =
      (prs.map Prod.fst).map (fun e => makeIndexKeys e.name e.slug) := by
    rw [List.map_map]
    exact List.map_congr_left (fun p hp => (hgood p hp).2)
  have hnodup2 : (((sorted.map
      (fun e => (truncEntry e, makeIndexKeys e.name e.slug))).map Prod.snd).flatten).Nodup := by
    rw [hsnd]
    have hpermL : (sorted.map (fun e => makeIndexKeys e.name e.slug)).Perm
        ((prs.map Prod.fst).map (fun e => makeIndexKeys e.name e.slug)) :=
      hperm.map _
    have hpermF := List.Perm.flatten hpermL
    refine (List.Perm.nodup_iff hpermF).2 ?_
    rw [← horig_snd]
    exact hnodup
  have hload2 : loadData (saveData (bindingsOf prs) ext) =
      some (bindingsOf (sorted.map (fun e => (truncEntry e, makeIndexKeys e.name e.slug))),
        ext) := by
    rw [hsave, huniq]
    have := loadData_bindings ⟨hdr2, sorted.map render⟩
      (sorted.map (fun e => (truncEntry e, makeIndexKeys e.name e.slug))) ?hp hnodup2
    · rw [this, hheader2]
    case hp =>
      show (sorted.map render).mapM (rowParse (isCIAHeader hdr2) hdr2) = _
      rw [hheader2]
      exact hmapM2
  have hlen2 : ∀ p ∈ sorted.map (fun e => (truncEntry e, makeIndexKeys e.name e.slug)),
      1 ≤ p.2.length := by
    intro p hp
    rw [List.mem_map] at hp
    obtain ⟨e, he, rfl⟩ := hp
    have hm := name_mem_makeIndexKeys e.name e.slug
      (name_ne_of_norm e (hkey_e e (hperm.mem_iff.1 he)))
    exact List.length_pos.2 (List.ne_nil_of_mem hm)
  have hnd2 : ((sorted.map
      (fun e => (truncEntry e, makeIndexKeys e.name e.slug))).map Prod.fst).Nodup := by
    have hfst : (sorted.map (fun e => (truncEntry e, makeIndexKeys e.name e.slug))).map
        Prod.fst = sorted.map truncEntry := by
      rw [List.map_map]
      rfl
    rw [hfst]
    apply List.Nodup.of_map (fun e : Entry => pyNorm e.name)
    rw [List.map_map]
    have hmm : sorted.map ((fun e : Entry => pyNorm e.name) ∘ truncEntry) =
        sorted.map (fun e : Entry => pyNorm e.name) := rfl
    rw [hmm]
    have hp2 : (sorted.map (fun e : Entry => pyNorm e.name)).Perm
        ((prs.map Prod.fst).map (fun e : Entry => pyNorm e.name)) := hperm.map _
    refine (List.Perm.nodup_iff hp2).2 ?_
    rw [List.map_map]
    exact hnames
  have hrec2 : storeRecords (bindingsOf (sorted.map
      (fun e => (truncEntry e, makeIndexKeys e.name e.slug)))) =
      (sorted.map (fun e => (truncEntry e, makeIndexKeys e.name e.slug))).map Prod.fst :=
    storeRecords_bindings _ hlen2 hnd2
  refine ⟨_, hload2, ?_⟩
  rw [hrec2, hrec1]
  have hfst : (sorted.map (fun e => (truncEntry e, makeIndexKeys e.name e.slug))).map
      Prod.fst = sorted.map truncEntry := by
    rw [List.map_map]
    rfl
  rw [hfst]
  have hmap1 : (sorted.map truncEntry).map tripleOf = sorted.map truncTriple := by
    rw [List.map_map]
    rfl
  rw [hmap1]
  exact hperm.map truncTriple

/-- C3 (amended): for a CSV file whose rows all parse, whose parsed records
all have a non-empty normalized name, whose index keys are exactly the
`_make_index_keys` of the record, and whose key lists do not collide,
`load_data` succeeds, `save_data` followed by `load_data` succeeds under the
same schema, and the reloaded records' `(name, ppp, rank)` triples are a
permutation of the originals' triples with `ppp` truncated to its integer
part (the value written back through `int(float(...))`). -/
theorem C3_roundtrip (f : CSVFile) (prs : List (Entry × List String))
    (hprs : f.rows.mapM (rowParse (isCIAHeader f.header) f.header) = some prs)
    (hnodup : ((prs.map Prod.snd).flatten).Nodup)
    (hgood : ∀ p ∈ prs, pyNorm p.1.name ≠ "" ∧ p.2 = makeIndexKeys p.1.name p.1.slug) :
    ∃ cache cache2 : Store,
      loadData f = some (cache, isCIAHeader f.header) ∧
        loadData (saveData cache (isCIAHeader f.header)) =
          some (cache2, isCIAHeader f.header) ∧
        ((storeRecords cache2).map tripleOf).Perm
          ((storeRecords cache).map truncTriple) := by
  have hload := loadData_bindings f prs hprs hnodup
  have htr : ∀ p ∈ prs, TrimmedEntry p.1 ∧
      (isCIAHeader f.header = false →
        p.1.slug = "" ∧ p.1.date = "" ∧ p.1.region = "") := by
    intro p hp
    obtain ⟨row, _, hrow⟩ := mapM_mem_inv _ f.rows prs hprs p hp
    exact rowParse_trimmed _ _ _ p.1 p.2 hrow
  refine ⟨bindingsOf prs, ?_⟩
  cases hext : isCIAHeader f.header with
  | true =>
    rw [hext] at hload
    have hcore := roundtrip_core true ciaFields renderExtRow prs hnodup hgood
      (by decide) rfl ?hr
    · obtain ⟨c2, hc1, hc2⟩ := hcore
      exact ⟨c2, hload, hc1, hc2⟩
    case hr =>
      intro p hp
      show extRowParse ciaFields (renderExtRow p.1) = _
      exact extRowParse_render p.1 (htr p hp).1
  | false =>
    rw [hext] at hload
    have hcore := roundtrip_core false ["country", "ppp", "rank"] renderSimpleRow prs
      hnodup hgood (by decide) rfl ?hr
    · obtain ⟨c2, hc1, hc2⟩ := hcore
      exact ⟨c2, hload, hc1, hc2⟩
    case hr =>
      intro p hp
      obtain ⟨hslug, hdate, hreg⟩ := (htr p hp).2 hext
      show simpleRowParse ["country", "ppp", "rank"] (renderSimpleRow p.1) = _
      rw [simpleRowParse_render p.1 (htr p hp).1 hslug hdate hreg, hslug,
        makeIndexKeys_empty_slug p.1.name (name_ne_of_norm p.1 (hgood p hp).1)]

/-- C3: counterexample to the claim as stated. A simple-schema file with a
single row whose country name is empty loads into a cache holding that
record, but `save_data` keys records by `_norm(name) or _norm(slug)` and
drops every record whose key is empty, so the rewritten file is empty and
the reload loses the record: the `(name, ppp, rank)` triples are not
preserved. -/
theorem C3_counterexample :
    loadData ⟨["country", "ppp", "rank"], [["", "5", "1"]]⟩ =
      some ([("", ⟨"", 5, 1, "", "", ""⟩)], false) ∧
    loadData (saveData [("", ⟨"", 5, 1, "", "", ""⟩)] false) = some ([], false) := by
  decide

/-- Witness for `C3_roundtrip`: a concrete two-row simple-schema file with
non-empty distinct names round-trips with its triples preserved. -/
theorem C3_roundtrip_witness :
    ∃ cache cache2 : Store,
      loadData ⟨["country", "ppp", "rank"], [["B", "7", "2"], ["A", "5", "1"]]⟩ =
        some (cache, false) ∧
        loadData (saveData cache false) = some (cache2, false) ∧
        ((storeRecords cache2).map tripleOf).Perm
          ((storeRecords cache).map truncTriple) :=
  C3_roundtrip ⟨["country", "ppp", "rank"], [["B", "7", "2"], ["A", "5", "1"]]⟩
    [(⟨"B", 7, 2, "", "", ""⟩, ["b"]), (⟨"A", 5, 1, "", "", ""⟩, ["a"])]
    (by decide) (by decide) (by decide)

end PPP
